import Mathlib

/-!
The program hub-enum: enumeration of directory accounts and retrieval of their public keys

A shallow embedding of `main.go`.

* `enumerateGithubUsers` pages through the account directory and sends every
  page of account IDs on a channel.
* `getUserKeys` receives the batches, turns every ID into a node reference,
  runs one lookup per batch through `queryWithRetries`, and pushes every
  `(key, login)` pair to the store.

The two external services are oracles indexed by the number of calls issued
so far, so that an oracle stands for an arbitrary sequence of responses.  Every
effect of a stage (remote call, log line, sleep, channel operation, store
append) is recorded in an event trace, in program order.  Each stage is
modelled on its own: the channel is the list of batches that one stage sends
and the other receives.  The lookup oracle gives what each call answered; the
struct `*query`, declared once per batch (line 120) and handed to every retry
(lines 128 and 142), is carried from one iteration of the retry loop to the
next.

Machine arithmetic: `retries` is a Go `int` (taken as 64 bits wide) and
`time.Duration` is an `int64`; the sleep computation wraps explicitly.  The
counter itself is a natural number: the model covers runs with fewer than
`2^63` consecutive failures.
-/

namespace HubEnum

/-! ## Backoff (lines 97 and 147) -/

/-- Two's-complement wrap of an integer to the signed 64 bit range. -/
def wrapInt64 (x : Int) : Int := (x + 2 ^ 63) % 2 ^ 64 - 2 ^ 63

/-- The constant `time.Millisecond`, in nanoseconds. -/
def millisecond : Int := 1000000

/-- The Go expression `2^retries*100`: `^` is bitwise exclusive or and binds
looser than `*`, so this is `2 xor (retries*100)`, computed on `int`. -/
def backoffUnits (retries : Nat) : Int :=
  wrapInt64 (Int.xor 2 (wrapInt64 ((retries : Int) * 100)))

/-- The argument of `time.Sleep`:
`time.Duration(2^retries*100) * time.Millisecond`, in nanoseconds. -/
def sleepDuration (retries : Nat) : Int :=
  wrapInt64 (backoffUnits retries * millisecond)

/-- The sleep computation stays inside the signed 64 bit range: neither the
product `retries*100` nor the product with `time.Millisecond` wraps. -/
def NoOverflow (retries : Nat) : Prop :=
  (retries : Int) * 100 < 2 ^ 63 ∧ Int.xor 2 ((retries : Int) * 100) * millisecond < 2 ^ 63

/-! ## Events -/

/-- Severity of a log line (logrus levels used by the program). -/
inductive Level where
  | debug
  | info
  | error
  deriving DecidableEq, Repr

/-- Options of the list call: `opts.Since` and `opts.PerPage`. -/
structure UserListOptions where
  Since : Int
  PerPage : Nat
  deriving DecidableEq, Repr

/-- Observable effects of `enumerateGithubUsers`, in program order. -/
inductive Event where
  | listAll (opts : UserListOptions)
  | log (lvl : Level)
  | sleep (ns : Int)
  | send (payload : List Int)
  | close
  | wgDone
  deriving DecidableEq, Repr

/-- Result of `client.Users.ListAll`: the IDs of the returned users, in order,
or an error which is a `*github.RateLimitError` or not. -/
inductive ListResult where
  | ok (ids : List Int)
  | fail (rateLimited : Bool)
  deriving DecidableEq, Repr

/-- The list service: the response to the call with a given index (number of
calls issued before it) and given options. -/
abbrev ListApi := Nat → UserListOptions → ListResult

/-! ## `enumerateGithubUsers` (lines 82-116) -/

/-- Loop state of `enumerateGithubUsers`: the options (with the cursor
`Since`), the retry counter, the number of list calls issued, the trace of
effects, and whether the function has left the loop and returned. -/
structure EnumState where
  opts : UserListOptions
  retries : Nat
  calls : Nat
  trace : List Event
  done : Bool
  deriving DecidableEq, Repr

/-- State on entry to the loop: `PerPage: 100`, `Since` unset, `retries` zero. -/
def enumInit : EnumState :=
  { opts := { Since := 0, PerPage := 100 }, retries := 0, calls := 0, trace := [], done := false }

/-- The ID of the last user of a non-empty page (`*users[len(users)-1].ID`). -/
def lastID (ids : List Int) : Int := ids.getLastD 0

/-- One iteration of the `for` loop of `enumerateGithubUsers` (and the two
statements after the loop, when the iteration breaks out of it). -/
def enumStep (api : ListApi) (s : EnumState) : EnumState :=
  if s.done then s
  else
    match api s.calls s.opts with
    | ListResult.fail rateLimited =>
      { s with
        calls := s.calls + 1
        trace := s.trace ++
          [Event.listAll s.opts,
           Event.log (if rateLimited then Level.error else Level.debug),
           Event.sleep (sleepDuration s.retries)]
        retries := s.retries + 1 }
    | ListResult.ok ids =>
      let sent := s.trace ++ [Event.listAll s.opts, Event.log Level.debug, Event.send ids]
      if ids.length = 0 then
        { s with
          calls := s.calls + 1
          trace := sent ++ [Event.log Level.info, Event.close, Event.wgDone]
          done := true }
      else
        { s with
          calls := s.calls + 1
          trace := sent
          opts := { s.opts with Since := lastID ids }
          retries := 0 }

/-- The first `n` iterations of the loop, from state `s`. -/
def enumRun (api : ListApi) : Nat → EnumState → EnumState
  | 0, s => s
  | n + 1, s => enumRun api n (enumStep api s)

/-- `enumerateGithubUsers`, run for `n` loop iterations. -/
def enumerateGithubUsers (api : ListApi) (n : Nat) : EnumState :=
  enumRun api n enumInit

/-- The batches sent on the channel, in emission order. -/
def sentBatches (t : List Event) : List (List Int) :=
  t.filterMap fun e => match e with
    | Event.send p => some p
    | _ => none

/-- The cursors (`Since`) of the list calls, in call order. -/
def callCursors (t : List Event) : List Int :=
  t.filterMap fun e => match e with
    | Event.listAll o => some o.Since
    | _ => none

/-- The cursor used by the list call with index `k`, as recorded in the trace;
`none` when the function returns before issuing that call. -/
def cursorOfCall (api : ListApi) (k : Nat) : Option Int :=
  (callCursors (enumerateGithubUsers api (k + 1)).trace)[k]?

/-- The log level of a failed list call. -/
def failLevel : ListResult → Level
  | ListResult.fail true => Level.error
  | _ => Level.debug

/-- The events of `e` consecutive failed list calls with options `o`, the
first of which has call index `c` and is made with retry counter `r`. -/
def retryEvents (api : ListApi) (o : UserListOptions) (c r e : Nat) : List Event :=
  (List.range e).flatMap fun i =>
    [Event.listAll o, Event.log (failLevel (api (c + i) o)), Event.sleep (sleepDuration (r + i))]

/-! ## The directory service -/

/-- The page the directory `L` returns for `listAccounts(since, perPage)`: the
first `perPage` IDs of `L` greater than `since`. -/
def listAccounts (L : List Int) (o : UserListOptions) : List Int :=
  (L.filter (fun x => decide (o.Since < x))).take o.PerPage

/-- A list service backed by the directory `L`: call `k` fails when
`failing k` is `some rateLimited` and otherwise returns the page. -/
def directoryApi (L : List Int) (failing : Nat → Option Bool) : ListApi :=
  fun k o =>
    match failing k with
    | some rl => ListResult.fail rl
    | none => ListResult.ok (listAccounts L o)

/-- `L` is a directory: its IDs are positive and strictly increasing. -/
def IsDirectory (L : List Int) : Prop :=
  (∀ x ∈ L, 0 < x) ∧ L.Pairwise (fun a b => a < b)

/-- Every run of failed calls is finite: after any call index there is a call
that does not fail. -/
def FinitelyFailing (failing : Nat → Option Bool) : Prop :=
  ∀ k, ∃ j, k ≤ j ∧ failing j = none

/-! ## Node references (line 123) -/

/-- The 64 characters of the standard base64 alphabet (RFC 4648, table 1). -/
def base64Alphabet : List Char :=
  "ABCDEFGHIJKLMNOPQRSTUVWXYZabcdefghijklmnopqrstuvwxyz0123456789+/".toList

/-- The character of a 6 bit value. -/
def encodeSextet (n : Nat) : Char := base64Alphabet.getD n 'A'

/-- The function `base64.StdEncoding.EncodeToString`: every three bytes give four
characters, and a last group of one or two bytes is padded with `=`. -/
def base64Encode : List Nat → List Char
  | [] => []
  | [a] => [encodeSextet (a / 4), encodeSextet (a % 4 * 16), '=', '=']
  | [a, b] =>
    [encodeSextet (a / 4), encodeSextet (a % 4 * 16 + b / 16), encodeSextet (b % 16 * 4), '=']
  | a :: b :: c :: rest =>
    encodeSextet (a / 4) :: encodeSextet (a % 4 * 16 + b / 16) ::
      encodeSextet (b % 16 * 4 + c / 64) :: encodeSextet (c % 64) :: base64Encode rest

/-- The conversion `[]byte(s)`: the UTF-8 bytes of a string. -/
def goBytes (s : List Char) : List Nat :=
  s.flatMap (fun c => (String.utf8EncodeChar c).map UInt8.toNat)

/-- The function `strconv.FormatInt(i, 10)`: the decimal digits, most significant
first, after a minus sign when `i` is negative. -/
def formatInt (i : Int) : List Char :=
  if i < 0 then '-' :: Nat.toDigits 10 i.natAbs else Nat.toDigits 10 i.natAbs

/-- The type tag of a user node. -/
def userTag : List Char := "4:User".toList

/-- The node reference of an account:
`base64.StdEncoding.EncodeToString([]byte("4:User"+strconv.FormatInt(userID, 10)))`. -/
def globalRef (userID : Int) : String :=
  String.mk (base64Encode (goBytes (userTag ++ formatInt userID)))

/-- The characters a tagged decimal numeral is made of. -/
def refChars : List Char := "4:User-0123456789".toList

/-! ### Decoding a node reference (from the specification) -/

/-- The 6 bit value of a base64 character, if it is one. -/
def decodeSextet (c : Char) : Option Nat :=
  let i := base64Alphabet.indexOf c
  if i < 64 then some i else none

/-- Decoding of padded standard base64: the inverse of `base64Encode`. -/
def base64Decode : List Char → Option (List Nat)
  | [] => some []
  | a :: b :: c :: d :: rest =>
    if d = '=' then
      if rest ≠ [] then none
      else if c = '=' then
        (decodeSextet a).bind fun x => (decodeSextet b).bind fun y => some [x * 4 + y / 16]
      else
        (decodeSextet a).bind fun x => (decodeSextet b).bind fun y => (decodeSextet c).bind fun z =>
          some [x * 4 + y / 16, y % 16 * 16 + z / 4]
    else
      (decodeSextet a).bind fun x => (decodeSextet b).bind fun y => (decodeSextet c).bind fun z =>
        (decodeSextet d).bind fun w => (base64Decode rest).map fun bs =>
          (x * 4 + y / 16) :: (y % 16 * 16 + z / 4) :: (z % 4 * 64 + w) :: bs
  | _ => none

/-- Reading of a decimal numeral onto the accumulator `acc`; fails on a
character that is not a digit. -/
def parseDigits (acc : Nat) : List Char → Option Nat
  | [] => some acc
  | c :: cs =>
    if 48 ≤ c.toNat ∧ c.toNat ≤ 57 then parseDigits (acc * 10 + (c.toNat - 48)) cs else none

/-- Reading of a decimal integer: an optional minus sign, then the digits. -/
def parseInt : List Char → Option Int
  | [] => none
  | c :: cs =>
    if c = '-' then
      if cs = [] then none else (parseDigits 0 cs).map fun (n : Nat) => - (n : Int)
    else (parseDigits 0 (c :: cs)).map fun (n : Nat) => (n : Int)

/-- Splitting a given tag off the front of a text. -/
def splitTag : List Char → List Char → Option (List Char)
  | [], s => some s
  | t :: ts, c :: cs => if t = c then splitTag ts cs else none
  | _ :: _, [] => none

/-- Decoding of a node reference: base64-decode, split off the tag `4:User`,
read the decimal remainder.  Returns the tag and the account ID. -/
def decodeGlobalRef (ref : String) : Option (List Char × Int) :=
  (base64Decode ref.data).bind fun bs =>
    (splitTag userTag (bs.map Char.ofNat)).bind fun digits =>
      (parseInt digits).map fun i => (userTag, i)

/-! ## The lookup response (lines 36-55) -/

/-- The struct `publicKey.Node`. -/
structure publicKeyNode where
  Key : String
  deriving DecidableEq, Repr

/-- The struct `publicKey`. -/
structure publicKey where
  Node : publicKeyNode
  deriving DecidableEq, Repr

/-- The struct `user.PublicKeys`. -/
structure publicKeys where
  Edges : List publicKey
  deriving DecidableEq, Repr

/-- The struct `user`. -/
structure user where
  Login : String
  PublicKeys : publicKeys
  deriving DecidableEq, Repr

/-- The struct `userResults`. -/
structure userResults where
  User : user
  deriving DecidableEq, Repr

/-- The struct `userQuery`. -/
structure userQuery where
  Nodes : List userResults
  deriving DecidableEq, Repr

/-- Observable effects of `getUserKeys` and `queryWithRetries`, in program order. -/
inductive FetchEvent where
  | query (nodeIds : List String)
  | log (lvl : Level)
  | sleep (ns : Int)
  | rpush (key : String) (value : String)
  | wgDone
  deriving DecidableEq, Repr

/-- What one call of `githubClient.Query` answers: the records the call decodes
from the response into `*query` (`none` when the response carries no data, as
for a transport error, and the call writes nothing), and the message of the
returned error (`none` for a `nil` error). -/
structure QueryResult where
  data : Option (List userResults)
  err : Option String
  deriving DecidableEq, Repr

/-- The lookup service: the answer to the call with a given index (number of
lookup calls issued before it) and given `nodeIds` variable. -/
abbrev QueryApi := Nat → List String → QueryResult

/-- The effect of `githubClient.Query(ctx, query, variables)` on `*query`: the
records of the response replace the nodes, and a response without data leaves
`*query` as the previous call left it (the pointer of line 128 is reused by
every iteration of the loop of line 141). -/
def storeData (query : userQuery) (r : QueryResult) : userQuery :=
  match r.data with
  | some nodes => { Nodes := nodes }
  | none => query

/-- The records of a response: those it carries, none when it carries no data. -/
def responseRecords (r : QueryResult) : List userResults :=
  match r.data with
  | some nodes => nodes
  | none => []

/-- The contents of `*query` after `m` lookups of `nodeIds`, the first with
call index `c`, when it held `query` before them. -/
def heldQuery (api : QueryApi) (nodeIds : List String) (query : userQuery) (c : Nat) :
    Nat → userQuery
  | 0 => query
  | m + 1 => storeData (heldQuery api nodeIds query c m) (api (c + m) nodeIds)

/-! ## `queryWithRetries` (lines 138-150) -/

/-- The text every resolution error starts with. -/
def resolutionErrorText : List Char :=
  "Could not resolve to a node with the global id of".toList

/-- The test `resolutionErrorRegex.MatchString(msg)` for the regular expression
`^Could not resolve to a node with the global id of.*`: the pattern is anchored
at the start only and `.*` also matches nothing, so it holds exactly when the
message starts with the text. -/
def resolutionErrorMatch (msg : String) : Bool :=
  resolutionErrorText.isPrefixOf msg.data

/-- The loop condition `err == nil || resolutionErrorRegex.MatchString(err.Error())`. -/
def queryResolved (r : QueryResult) : Bool :=
  match r.err with
  | none => true
  | some msg => resolutionErrorMatch msg

/-- Loop state of `queryWithRetries`: the contents of `*query`, the retry
counter, the number of lookup calls issued, the trace of effects, and whether
the loop has been left. -/
structure QueryState where
  query : userQuery
  retries : Nat
  calls : Nat
  trace : List FetchEvent
  done : Bool
  deriving DecidableEq, Repr

/-- One iteration of the `for` loop of `queryWithRetries`. -/
def queryStep (api : QueryApi) (nodeIds : List String) (s : QueryState) : QueryState :=
  if s.done then s
  else
    let r := api s.calls nodeIds
    if queryResolved r then
      { s with
        query := storeData s.query r
        calls := s.calls + 1
        trace := s.trace ++ [FetchEvent.query nodeIds]
        done := true }
    else
      { s with
        query := storeData s.query r
        calls := s.calls + 1
        trace := s.trace ++
          [FetchEvent.query nodeIds, FetchEvent.log Level.debug,
           FetchEvent.sleep (sleepDuration s.retries)]
        retries := s.retries + 1 }

/-- The first `n` iterations of the loop, from state `s`. -/
def queryRun (api : QueryApi) (nodeIds : List String) : Nat → QueryState → QueryState
  | 0, s => s
  | n + 1, s => queryRun api nodeIds n (queryStep api nodeIds s)

/-- `queryWithRetries`, run for at most `n` loop iterations, when `calls` lookup
calls were issued before and `trace` is the trace so far. -/
def queryWithRetries (api : QueryApi) (query : userQuery) (nodeIds : List String)
    (calls : Nat) (trace : List FetchEvent) (n : Nat) : QueryState :=
  queryRun api nodeIds n
    { query := query, retries := 0, calls := calls, trace := trace, done := false }

/-! ## `getUserKeys` (lines 118-136) -/

/-- State of `getUserKeys` between two batches: the number of lookup calls
issued, the trace of effects, whether a retry loop was cut off by the iteration
bound, and whether the function has returned. -/
structure FetchState where
  calls : Nat
  trace : List FetchEvent
  exhausted : Bool
  returned : Bool
  deriving DecidableEq, Repr

/-- State on entry to `getUserKeys`. -/
def fetchInit : FetchState :=
  { calls := 0, trace := [], exhausted := false, returned := false }

/-- The loop of lines 122-124: one node reference is appended per account ID. -/
def nodeIdsOf (userIds : List Int) : List String :=
  userIds.foldl (fun nodeIds userID => nodeIds ++ [globalRef userID]) []

/-- The loops of lines 129-133: one `RPush(key, login)` per key of every node. -/
def pushKeys (nodes : List userResults) (trace : List FetchEvent) : List FetchEvent :=
  nodes.foldl
    (fun t userInfo =>
      userInfo.User.PublicKeys.Edges.foldl
        (fun t keyInfo => t ++ [FetchEvent.rpush keyInfo.Node.Key userInfo.User.Login]) t)
    trace

/-- The body of the `for ... range` loop of `getUserKeys` for one received
batch, with at most `n` iterations of the retry loop. -/
def getUserKeysBatch (api : QueryApi) (n : Nat) (st : FetchState) (userIds : List Int) :
    FetchState :=
  let q := queryWithRetries api { Nodes := [] } (nodeIdsOf userIds) st.calls st.trace n
  if q.done then
    { st with calls := q.calls, trace := pushKeys q.query.Nodes q.trace }
  else
    { st with calls := q.calls, trace := q.trace, exhausted := true }

/-- `getUserKeys` on the batches received from the channel until it is closed,
with at most `n` iterations of every retry loop. -/
def getUserKeys (api : QueryApi) (n : Nat) : List (List Int) → FetchState → FetchState
  | [], st => { st with trace := st.trace ++ [FetchEvent.wgDone], returned := true }
  | userIds :: rest, st =>
    let st1 := getUserKeysBatch api n st userIds
    if st1.exhausted then st1 else getUserKeys api n rest st1

/-- The lookups of a trace: the `nodeIds` of every call, in order. -/
def lookups (t : List FetchEvent) : List (List String) :=
  t.filterMap fun e => match e with
    | FetchEvent.query v => some v
    | _ => none

/-- The store appends of a trace: the `(key, value)` of every push, in order. -/
def sinkWrites (t : List FetchEvent) : List (String × String) :=
  t.filterMap fun e => match e with
    | FetchEvent.rpush k v => some (k, v)
    | _ => none

/-- The sleeps of a fetcher trace, in order. -/
def fetchSleeps (t : List FetchEvent) : List Int :=
  t.filterMap fun e => match e with
    | FetchEvent.sleep d => some d
    | _ => none

/-- The appends the specification asks for: for every record, in order, and
every key of the record, in order, the pair of the key and the login. -/
def specAppends (records : List userResults) : List (String × String) :=
  records.flatMap fun r => r.User.PublicKeys.Edges.map fun k => (k.Node.Key, r.User.Login)

/-- The records of the end-to-end scenario of the specification: login `a`
with key `k1`, an empty record for the unresolvable ID, login `c` with keys
`k2` and `k3`. -/
def scenarioRecords : List userResults :=
  [{ User := { Login := "a", PublicKeys := { Edges := [{ Node := { Key := "k1" } }] } } },
   { User := { Login := "", PublicKeys := { Edges := [] } } },
   { User := { Login := "c", PublicKeys :=
      { Edges := [{ Node := { Key := "k2" } }, { Node := { Key := "k3" } }] } } }]

/-- A lookup service for the scenario: every call returns the scenario records
together with a resolution error. -/
def scenarioApi : QueryApi :=
  fun _ _ =>
    { data := some scenarioRecords
      err := some "Could not resolve to a node with the global id of NDpVc2VyMg==" }

/-- A lookup service whose first answer carries the record of login `a` with
key `k1` together with a transient error, whose second answer is a transport
error without data, and whose later answers are a resolution error without
data. -/
def staleApi : QueryApi :=
  fun k _ =>
    if k = 0 then
      { data := some
          [{ User := { Login := "a", PublicKeys := { Edges := [{ Node := { Key := "k1" } }] } } }]
        err := some "boom" }
    else if k = 1 then { data := none, err := some "502 Bad Gateway" }
    else
      { data := none
        err := some "Could not resolve to a node with the global id of NDpVc2VyMQ==" }

/-- A lookup service whose first answer is a transient error without data and
whose later answers carry the record of login `a` with key `k1` together with
a resolution error. -/
def partialApi : QueryApi :=
  fun k _ =>
    if k = 0 then { data := none, err := some "EOF" }
    else
      { data := some
          [{ User := { Login := "a", PublicKeys := { Edges := [{ Node := { Key := "k1" } }] } } }]
        err := some "Could not resolve to a node with the global id of NDpVc2VyMg==" }

/-- A lookup service that fails twice with a transient error and then succeeds,
never with data. -/
def flakyApi : QueryApi :=
  fun k _ => if k < 2 then { data := none, err := some "EOF" } else { data := none, err := none }

/-- The sleeps of an enumerator trace, in order. -/
def sleeps (t : List Event) : List Int :=
  t.filterMap fun e => match e with
    | Event.sleep d => some d
    | _ => none

/-- The events of `e` consecutive unresolved lookups of `nodeIds`, the first
of which is made with retry counter `r`. -/
def queryRetryEvents (nodeIds : List String) (r e : Nat) : List FetchEvent :=
  (List.range e).flatMap fun i =>
    [FetchEvent.query nodeIds, FetchEvent.log Level.debug, FetchEvent.sleep (sleepDuration (r + i))]

/-! ## Backoff: lemmas -/

theorem xor_two_four_mul (m : Nat) : 2 ^^^ (4 * m) = 4 * m + 2 := by
  have h2 : (2 : Nat) = Nat.bit false (Nat.bit true 0) := by simp [Nat.bit]
  have h4 : 4 * m = Nat.bit false (Nat.bit false m) := by simp [Nat.bit]; omega
  rw [h4, h2, Nat.xor_bit, Nat.xor_bit]
  simp [Nat.bit]
  omega

theorem int_xor_two (n : Nat) : Int.xor 2 ((n : Int) * 100) = 100 * (n : Int) + 2 := by
  have h := xor_two_four_mul (25 * n)
  have e : ((n : Int) * 100) = ((4 * (25 * n) : Nat) : Int) := by push_cast; ring
  rw [e]
  show (((2 : Nat) ^^^ (4 * (25 * n)) : Nat) : Int) = _
  rw [h]; push_cast; ring

theorem wrapInt64_of_range (x : Int) (h0 : -2 ^ 63 ≤ x) (h1 : x < 2 ^ 63) : wrapInt64 x = x := by
  unfold wrapInt64
  rw [Int.emod_eq_of_lt (by omega) (by omega)]
  omega

theorem noOverflow_iff (n : Nat) :
    NoOverflow n ↔ (100 * (n : Int) + 2) * 1000000 < 2 ^ 63 := by
  unfold NoOverflow millisecond
  rw [int_xor_two]
  constructor
  · intro h; exact h.2
  · intro h; exact ⟨by omega, h⟩

theorem sleepDuration_eq (n : Nat) (h : (100 * (n : Int) + 2) * 1000000 < 2 ^ 63) :
    sleepDuration n = (100 * (n : Int) + 2) * 1000000 := by
  unfold sleepDuration backoffUnits millisecond
  rw [wrapInt64_of_range ((n : Int) * 100) (by omega) (by omega), int_xor_two,
    wrapInt64_of_range (100 * (n : Int) + 2) (by omega) (by omega),
    wrapInt64_of_range _ (by omega) h]

theorem sleepDuration_lt (a b : Nat) (hab : a < b)
    (hb : (100 * (b : Int) + 2) * 1000000 < 2 ^ 63) : sleepDuration a < sleepDuration b := by
  rw [sleepDuration_eq b hb, sleepDuration_eq a (by omega)]
  omega

/-! ## Enumerator: lemmas -/

theorem enumStep_done (api : ListApi) (s : EnumState) (h : s.done = true) :
    enumStep api s = s := by
  simp [enumStep, h]

theorem enumStep_fail (api : ListApi) (s : EnumState) (rl : Bool) (h : s.done = false)
    (hr : api s.calls s.opts = ListResult.fail rl) :
    enumStep api s =
      { s with
        calls := s.calls + 1
        trace := s.trace ++
          [Event.listAll s.opts, Event.log (failLevel (api s.calls s.opts)),
           Event.sleep (sleepDuration s.retries)]
        retries := s.retries + 1 } := by
  cases rl <;> simp [enumStep, h, hr, failLevel]

theorem enumStep_empty (api : ListApi) (s : EnumState) (h : s.done = false)
    (hr : api s.calls s.opts = ListResult.ok []) :
    enumStep api s =
      { s with
        calls := s.calls + 1
        trace := s.trace ++
          [Event.listAll s.opts, Event.log Level.debug, Event.send [],
           Event.log Level.info, Event.close, Event.wgDone]
        done := true } := by
  simp [enumStep, h, hr]

theorem enumStep_page (api : ListApi) (s : EnumState) (ids : List Int) (h : s.done = false)
    (hr : api s.calls s.opts = ListResult.ok ids) (hne : ids ≠ []) :
    enumStep api s =
      { s with
        calls := s.calls + 1
        trace := s.trace ++ [Event.listAll s.opts, Event.log Level.debug, Event.send ids]
        opts := { s.opts with Since := lastID ids }
        retries := 0 } := by
  simp [enumStep, h, hr, hne]

theorem enumRun_done (api : ListApi) (n : Nat) (s : EnumState) (h : s.done = true) :
    enumRun api n s = s := by
  induction n with
  | zero => rfl
  | succ n ih => rw [enumRun, enumStep_done api s h, ih]

theorem enumRun_add (api : ListApi) (m n : Nat) (s : EnumState) :
    enumRun api (m + n) s = enumRun api n (enumRun api m s) := by
  induction m generalizing s with
  | zero => simp [enumRun]
  | succ m ih => rw [Nat.succ_add, enumRun, enumRun, ih]

theorem enumRun_succ (api : ListApi) (n : Nat) (s : EnumState) :
    enumRun api (n + 1) s = enumStep api (enumRun api n s) := by
  rw [enumRun_add]; rfl

theorem enumRun_fails (api : ListApi) (e : Nat) (s : EnumState) (h : s.done = false)
    (hf : ∀ i, i < e → ∃ rl, api (s.calls + i) s.opts = ListResult.fail rl) :
    enumRun api e s =
      { s with
        calls := s.calls + e
        trace := s.trace ++ retryEvents api s.opts s.calls s.retries e
        retries := s.retries + e } := by
  induction e with
  | zero => simp [enumRun, retryEvents]
  | succ e ih =>
    rw [enumRun_succ, ih (fun i hi => hf i (by omega))]
    obtain ⟨rl, hrl⟩ := hf e (by omega)
    rw [enumStep_fail api _ rl (by exact h) (by exact hrl)]
    simp [retryEvents, List.range_succ, Nat.add_assoc]

theorem callCursors_append (a b : List Event) :
    callCursors (a ++ b) = callCursors a ++ callCursors b := by
  simp [callCursors]

theorem sentBatches_append (a b : List Event) :
    sentBatches (a ++ b) = sentBatches a ++ sentBatches b := by
  simp [sentBatches]

theorem enumStep_call (api : ListApi) (s : EnumState) (h : s.done = false) :
    (enumStep api s).calls = s.calls + 1 ∧
      callCursors (enumStep api s).trace = callCursors s.trace ++ [s.opts.Since] ∧
      (enumStep api s).opts.PerPage = s.opts.PerPage := by
  cases hr : api s.calls s.opts with
  | fail rl =>
    rw [enumStep_fail api s rl h hr]
    simp [callCursors]
  | ok ids =>
    by_cases hne : ids = []
    · subst hne
      rw [enumStep_empty api s h hr]
      simp [callCursors]
    · rw [enumStep_page api s ids h hr hne]
      simp [callCursors]

theorem enum_calls_inv (api : ListApi) (n : Nat) :
    (callCursors (enumerateGithubUsers api n).trace).length = (enumerateGithubUsers api n).calls ∧
      (enumerateGithubUsers api n).calls ≤ n ∧
      ((enumerateGithubUsers api n).done = false → (enumerateGithubUsers api n).calls = n) ∧
      (enumerateGithubUsers api n).opts.PerPage = 100 := by
  induction n with
  | zero => simp [enumerateGithubUsers, enumRun, enumInit, callCursors]
  | succ n ih =>
    obtain ⟨h1, h2, h3, h4⟩ := ih
    have e : enumerateGithubUsers api (n + 1) = enumStep api (enumerateGithubUsers api n) :=
      enumRun_succ api n enumInit
    rw [e]
    cases hd : (enumerateGithubUsers api n).done with
    | true =>
      rw [enumStep_done api _ hd]
      exact ⟨h1, by omega, by simp [hd], h4⟩
    | false =>
      obtain ⟨c1, c2, c3⟩ := enumStep_call api _ hd
      have := h3 hd
      refine ⟨by rw [c1, c2]; simp [h1], by omega, fun _ => by omega, by rw [c3, h4]⟩

theorem cursorOfCall_eq (api : ListApi) (k : Nat) :
    cursorOfCall api k =
      if (enumerateGithubUsers api k).done then none
      else some (enumerateGithubUsers api k).opts.Since := by
  obtain ⟨h1, h2, h3, _⟩ := enum_calls_inv api k
  have e : enumerateGithubUsers api (k + 1) = enumStep api (enumerateGithubUsers api k) :=
    enumRun_succ api k enumInit
  unfold cursorOfCall
  rw [e]
  cases hd : (enumerateGithubUsers api k).done with
  | true =>
    rw [enumStep_done api _ hd]
    simp only [if_true, Bool.true_eq_false, if_false]
    exact List.getElem?_eq_none (by omega)
  | false =>
    obtain ⟨_, c2, _⟩ := enumStep_call api _ hd
    have hk := h3 hd
    rw [c2]
    simp only [Bool.false_eq_true, if_false]
    rw [List.getElem?_append_right (by omega)]
    simp [h1, hk]

/-! ## Enumerator against a directory: lemmas -/

theorem lastID_eq_getLast (ids : List Int) (h : ids ≠ []) : lastID ids = ids.getLast h := by
  unfold lastID
  cases ids with
  | nil => exact absurd rfl h
  | cons a t => rfl

theorem lastID_mem (ids : List Int) (h : ids ≠ []) : lastID ids ∈ ids := by
  rw [lastID_eq_getLast ids h]
  exact List.getLast_mem h

theorem le_lastID (l : List Int) (hs : l.Pairwise (fun a b => a < b)) (a : Int) (ha : a ∈ l) :
    a ≤ lastID l := by
  have hne : l ≠ [] := List.ne_nil_of_mem ha
  rw [lastID_eq_getLast l hne]
  have hsplit := List.dropLast_append_getLast hne
  rw [← hsplit] at hs ha
  rw [List.pairwise_append] at hs
  rcases List.mem_append.1 ha with h | h
  · exact le_of_lt (hs.2.2 a h _ (List.mem_singleton.2 rfl))
  · exact le_of_eq (List.mem_singleton.1 h)

theorem listAccounts_split (A B : List Int) (o : UserListOptions)
    (hA : ∀ a ∈ A, a ≤ o.Since) (hB : ∀ b ∈ B, o.Since < b) :
    listAccounts (A ++ B) o = B.take o.PerPage := by
  unfold listAccounts
  generalize o.Since = c at hA hB
  have h1 : A.filter (fun x => decide (c < x)) = [] := by
    rw [List.filter_eq_nil_iff]
    intro a ha
    have := hA a ha
    simp
    omega
  have h2 : B.filter (fun x => decide (c < x)) = B := by
    rw [List.filter_eq_self]
    intro b hb
    simpa using hB b hb
  simp [List.filter_append, h1, h2]

theorem next_success (failing : Nat → Option Bool) (hfin : FinitelyFailing failing) (k : Nat) :
    ∃ e, (∀ i, i < e → ∃ rl, failing (k + i) = some rl) ∧ failing (k + e) = none := by
  have hex : ∃ e, failing (k + e) = none := by
    obtain ⟨j, hj, hn⟩ := hfin k
    exact ⟨j - k, by rw [Nat.add_sub_cancel' hj]; exact hn⟩
  refine ⟨Nat.find hex, ?_, Nat.find_spec hex⟩
  intro i hi
  have := Nat.find_min hex hi
  cases hf : failing (k + i) with
  | none => exact absurd hf this
  | some rl => exact ⟨rl, rfl⟩

theorem sentBatches_retryEvents (api : ListApi) (o : UserListOptions) (c r e : Nat) :
    sentBatches (retryEvents api o c r e) = [] := by
  induction e with
  | zero => simp [retryEvents, sentBatches]
  | succ e ih =>
    unfold retryEvents at ih ⊢
    rw [List.range_succ, List.flatMap_append, sentBatches_append, ih]
    simp [sentBatches]

theorem enum_pages (L : List Int) (failing : Nat → Option Bool) (hfin : FinitelyFailing failing)
    (hsorted : L.Pairwise (fun a b => a < b)) :
    ∀ (n : Nat) (B A : List Int) (s : EnumState), B.length ≤ n → A ++ B = L →
      s.done = false → s.opts.PerPage = 100 →
      (∀ a ∈ A, a ≤ s.opts.Since) → (∀ b ∈ B, s.opts.Since < b) →
      ∃ (m : Nat) (pages : List (List Int)),
        (enumRun (directoryApi L failing) m s).done = true ∧
        sentBatches (enumRun (directoryApi L failing) m s).trace =
          sentBatches s.trace ++ pages ++ [[]] ∧
        pages.flatten = B ∧ (∀ p ∈ pages, p ≠ []) ∧ pages.length = (B.length + 99) / 100 := by
  intro n
  induction n with
  | zero =>
    intro B A s hn hAB hd hpp hA hB
    have hB0 : B = [] := List.length_eq_zero.1 (by omega)
    subst hB0
    obtain ⟨e, hfail, hok⟩ := next_success failing hfin s.calls
    have hrun := enumRun_fails (directoryApi L failing) e s hd (fun i hi => by
      obtain ⟨rl, hrl⟩ := hfail i hi
      exact ⟨rl, by simp [directoryApi, hrl]⟩)
    have hpage : directoryApi L failing (s.calls + e) s.opts = ListResult.ok [] := by
      have := listAccounts_split A [] s.opts hA hB
      rw [hAB] at this
      simp [directoryApi, hok, this]
    refine ⟨e + 1, [], ?_, ?_, rfl, by simp, by simp⟩
    · rw [enumRun_succ, hrun, enumStep_empty _ _ (by exact hd) (by exact hpage)]
    · rw [enumRun_succ, hrun, enumStep_empty _ _ (by exact hd) (by exact hpage)]
      simp [sentBatches_append, sentBatches_retryEvents]
      simp [sentBatches]
  | succ n ih =>
    intro B A s hn hAB hd hpp hA hB
    obtain ⟨e, hfail, hok⟩ := next_success failing hfin s.calls
    have hrun := enumRun_fails (directoryApi L failing) e s hd (fun i hi => by
      obtain ⟨rl, hrl⟩ := hfail i hi
      exact ⟨rl, by simp [directoryApi, hrl]⟩)
    have hpage : directoryApi L failing (s.calls + e) s.opts = ListResult.ok (B.take 100) := by
      have := listAccounts_split A B s.opts hA hB
      rw [hAB, hpp] at this
      simp [directoryApi, hok, this]
    by_cases hB0 : B = []
    · subst hB0
      refine ⟨e + 1, [], ?_, ?_, rfl, by simp, by simp⟩
      · rw [enumRun_succ, hrun, enumStep_empty _ _ (by exact hd) (by exact hpage)]
      · rw [enumRun_succ, hrun, enumStep_empty _ _ (by exact hd) (by exact hpage)]
        simp [sentBatches_append, sentBatches_retryEvents]
        simp [sentBatches]
    · have hne : B.take 100 ≠ [] := by
        cases B with
        | nil => exact absurd rfl hB0
        | cons b t => simp
      have hBs : B.Pairwise (fun a b => a < b) := by
        rw [← hAB] at hsorted
        exact (List.pairwise_append.1 hsorted).2.1
      have hAB2 : ∀ a ∈ A, ∀ b ∈ B, a < b := by
        rw [← hAB] at hsorted
        exact (List.pairwise_append.1 hsorted).2.2
      have htd : (B.take 100 ++ B.drop 100).Pairwise (fun a b => a < b) := by
        rw [List.take_append_drop]; exact hBs
      rw [List.pairwise_append] at htd
      have hlast := lastID_mem (B.take 100) hne
      have hstep := enumStep_page (directoryApi L failing) (enumRun (directoryApi L failing) e s)
        (B.take 100) (by rw [hrun]; exact hd) (by rw [hrun]; exact hpage) hne
      have hlen : 0 < B.length := List.length_pos.2 hB0
      obtain ⟨m, pages, h1, h2, h3, h4, h5⟩ := ih (B.drop 100) (A ++ B.take 100)
        (enumStep (directoryApi L failing) (enumRun (directoryApi L failing) e s))
        (by simp; omega)
        (by rw [List.append_assoc, List.take_append_drop]; exact hAB)
        (by rw [hstep, hrun]; exact hd)
        (by rw [hstep, hrun]; exact hpp)
        (by
          rw [hstep, hrun]
          intro a ha
          rcases List.mem_append.1 ha with h | h
          · exact le_of_lt (hAB2 a h _ (List.mem_of_mem_take hlast))
          · exact le_lastID _ htd.1 a h)
        (by
          rw [hstep, hrun]
          intro b hb
          exact htd.2.2 _ hlast b hb)
      refine ⟨e + 1 + m, B.take 100 :: pages, ?_, ?_, ?_, ?_, ?_⟩
      · rw [enumRun_add, enumRun_succ]; exact h1
      · rw [enumRun_add, enumRun_succ, h2, hstep, hrun]
        simp [sentBatches_append, sentBatches_retryEvents]
        simp [sentBatches]
      · simp [h3]
      · intro p hp
        rcases List.mem_cons.1 hp with h | h
        · rw [h]; exact hne
        · exact h4 p h
      · simp [h5]
        omega

theorem enum_close_inv (api : ListApi) (n : Nat) :
    ((enumerateGithubUsers api n).done = false → Event.close ∉ (enumerateGithubUsers api n).trace) ∧
      ((enumerateGithubUsers api n).done = true →
        ∃ pre, (enumerateGithubUsers api n).trace =
            pre ++ [Event.send [], Event.log Level.info, Event.close, Event.wgDone] ∧
          Event.close ∉ pre) := by
  induction n with
  | zero => simp [enumerateGithubUsers, enumRun, enumInit]
  | succ n ih =>
    have e : enumerateGithubUsers api (n + 1) = enumStep api (enumerateGithubUsers api n) :=
      enumRun_succ api n enumInit
    rw [e]
    cases hd : (enumerateGithubUsers api n).done with
    | true =>
      rw [enumStep_done api _ hd]
      exact ⟨fun h => (by rw [hd] at h; cases h), fun _ => ih.2 hd⟩
    | false =>
      have hnc := ih.1 hd
      cases hr : api (enumerateGithubUsers api n).calls (enumerateGithubUsers api n).opts with
      | fail rl =>
        rw [enumStep_fail api _ rl hd hr]
        simp [hd, hnc]
      | ok ids =>
        by_cases hne : ids = []
        · subst hne
          rw [enumStep_empty api _ hd hr]
          refine ⟨by simp, fun _ => ⟨(enumerateGithubUsers api n).trace ++
            [Event.listAll (enumerateGithubUsers api n).opts, Event.log Level.debug], ?_, ?_⟩⟩
          · simp
          · simp [hnc]
        · rw [enumStep_page api _ ids hd hr hne]
          simp [hd, hnc]

theorem enumerate_stable (api : ListApi) (n m : Nat) (hnm : n ≤ m)
    (hd : (enumerateGithubUsers api n).done = true) :
    enumerateGithubUsers api m = enumerateGithubUsers api n := by
  obtain ⟨d, rfl⟩ := Nat.exists_eq_add_of_le hnm
  unfold enumerateGithubUsers at hd ⊢
  rw [enumRun_add, enumRun_done api d _ hd]

theorem enumerate_directory (L : List Int) (failing : Nat → Option Bool) (hL : IsDirectory L)
    (hfin : FinitelyFailing failing) :
    ∃ (n : Nat) (pages : List (List Int)),
      (enumerateGithubUsers (directoryApi L failing) n).done = true ∧
      sentBatches (enumerateGithubUsers (directoryApi L failing) n).trace = pages ++ [[]] ∧
      pages.flatten = L ∧ (∀ p ∈ pages, p ≠ []) ∧ pages.length = (L.length + 99) / 100 := by
  obtain ⟨m, pages, h1, h2, h3, h4, h5⟩ := enum_pages L failing hfin hL.2 L.length L [] enumInit
    (le_refl _) rfl rfl rfl (by simp) (fun b hb => hL.1 b hb)
  refine ⟨m, pages, h1, ?_, h3, h4, h5⟩
  rw [enumerateGithubUsers, h2]
  simp [enumInit, sentBatches]

/-! ## Fetcher: lemmas -/

theorem queryStep_done (api : QueryApi) (nodeIds : List String) (s : QueryState)
    (h : s.done = true) : queryStep api nodeIds s = s := by
  simp [queryStep, h]

theorem queryStep_resolved (api : QueryApi) (nodeIds : List String) (s : QueryState)
    (h : s.done = false) (hr : queryResolved (api s.calls nodeIds) = true) :
    queryStep api nodeIds s =
      { s with
        query := storeData s.query (api s.calls nodeIds)
        calls := s.calls + 1
        trace := s.trace ++ [FetchEvent.query nodeIds]
        done := true } := by
  simp [queryStep, h, hr]

theorem queryStep_retry (api : QueryApi) (nodeIds : List String) (s : QueryState)
    (h : s.done = false) (hr : queryResolved (api s.calls nodeIds) = false) :
    queryStep api nodeIds s =
      { s with
        query := storeData s.query (api s.calls nodeIds)
        calls := s.calls + 1
        trace := s.trace ++
          [FetchEvent.query nodeIds, FetchEvent.log Level.debug,
           FetchEvent.sleep (sleepDuration s.retries)]
        retries := s.retries + 1 } := by
  simp [queryStep, h, hr]

theorem queryRun_done (api : QueryApi) (nodeIds : List String) (n : Nat) (s : QueryState)
    (h : s.done = true) : queryRun api nodeIds n s = s := by
  induction n with
  | zero => rfl
  | succ n ih => rw [queryRun, queryStep_done api nodeIds s h, ih]

theorem queryRun_add (api : QueryApi) (nodeIds : List String) (m n : Nat) (s : QueryState) :
    queryRun api nodeIds (m + n) s = queryRun api nodeIds n (queryRun api nodeIds m s) := by
  induction m generalizing s with
  | zero => simp [queryRun]
  | succ m ih => rw [Nat.succ_add, queryRun, queryRun, ih]

theorem queryRun_succ (api : QueryApi) (nodeIds : List String) (n : Nat) (s : QueryState) :
    queryRun api nodeIds (n + 1) s = queryStep api nodeIds (queryRun api nodeIds n s) := by
  rw [queryRun_add]; rfl

theorem queryRun_retries (api : QueryApi) (nodeIds : List String) (e : Nat) (s : QueryState)
    (h : s.done = false)
    (hf : ∀ i, i < e → queryResolved (api (s.calls + i) nodeIds) = false) :
    (queryRun api nodeIds e s).done = false ∧
      (queryRun api nodeIds e s).calls = s.calls + e ∧
      (queryRun api nodeIds e s).retries = s.retries + e ∧
      (queryRun api nodeIds e s).trace = s.trace ++ queryRetryEvents nodeIds s.retries e ∧
      (queryRun api nodeIds e s).query = heldQuery api nodeIds s.query s.calls e := by
  induction e with
  | zero => simp [queryRun, queryRetryEvents, h, heldQuery]
  | succ e ih =>
    obtain ⟨h1, h2, h3, h4, h5⟩ := ih (fun i hi => hf i (by omega))
    rw [queryRun_succ, queryStep_retry api nodeIds _ h1 (by rw [h2]; exact hf e (by omega))]
    refine ⟨h1, by simp [h2]; omega, by simp [h3]; omega, ?_, ?_⟩
    · simp [h4, h3, queryRetryEvents, List.range_succ]
    · simp [h5, h2, heldQuery]

theorem queryRun_resolves (api : QueryApi) (nodeIds : List String) (e n : Nat) (s : QueryState)
    (h : s.done = false) (hn : e < n)
    (hf : ∀ i, i < e → queryResolved (api (s.calls + i) nodeIds) = false)
    (hr : queryResolved (api (s.calls + e) nodeIds) = true) :
    (queryRun api nodeIds n s).done = true ∧
      (queryRun api nodeIds n s).calls = s.calls + e + 1 ∧
      (queryRun api nodeIds n s).query = heldQuery api nodeIds s.query s.calls (e + 1) ∧
      (queryRun api nodeIds n s).trace =
        s.trace ++ queryRetryEvents nodeIds s.retries e ++ [FetchEvent.query nodeIds] := by
  obtain ⟨h1, h2, _, h4, h5⟩ := queryRun_retries api nodeIds e s h hf
  obtain ⟨d, rfl⟩ := Nat.exists_eq_add_of_le (Nat.succ_le_of_lt hn)
  have hstep := queryStep_resolved api nodeIds _ h1 (by rw [h2]; exact hr)
  rw [queryRun_add, queryRun_succ, queryRun_done _ _ _ _ (by rw [hstep]), hstep]
  simp [h2, h4, h5, heldQuery]

theorem heldQuery_data (api : QueryApi) (nodeIds : List String) (query : userQuery) (c m : Nat)
    (nodes : List userResults) (h : (api (c + m) nodeIds).data = some nodes) :
    (heldQuery api nodeIds query c (m + 1)).Nodes = nodes := by
  simp [heldQuery, storeData, h]

theorem heldQuery_none (api : QueryApi) (nodeIds : List String) (query : userQuery) (c : Nat) :
    ∀ m, (∀ i, i < m → (api (c + i) nodeIds).data = none) →
      heldQuery api nodeIds query c m = query := by
  intro m
  induction m with
  | zero => intro _; rfl
  | succ m ih =>
    intro h
    rw [heldQuery, ih (fun i hi => h i (by omega))]
    simp [storeData, h m (by omega)]

theorem heldQuery_add (api : QueryApi) (nodeIds : List String) (query : userQuery) (c m : Nat) :
    ∀ k, heldQuery api nodeIds query c (m + k) =
      heldQuery api nodeIds (heldQuery api nodeIds query c m) (c + m) k := by
  intro k
  induction k with
  | zero => rfl
  | succ k ih =>
    rw [← Nat.add_assoc, heldQuery, ih, heldQuery, Nat.add_assoc]

theorem heldQuery_last (api : QueryApi) (nodeIds : List String) (query : userQuery) (c e j : Nat)
    (nodes : List userResults) (hj : j ≤ e) (hdata : (api (c + j) nodeIds).data = some nodes)
    (hlater : ∀ i, j < i → i ≤ e → (api (c + i) nodeIds).data = none) :
    (heldQuery api nodeIds query c (e + 1)).Nodes = nodes := by
  obtain ⟨d, rfl⟩ := Nat.exists_eq_add_of_le hj
  have h1 : j + d + 1 = (j + 1) + d := by omega
  rw [h1, heldQuery_add, heldQuery_none api nodeIds _ (c + (j + 1)) d (fun i hi => by
    have := hlater (j + 1 + i) (by omega) (by omega)
    rw [← Nat.add_assoc] at this
    exact this)]
  exact heldQuery_data api nodeIds query c j nodes hdata

theorem pushKeys_inner (login : String) (edges : List publicKey) (t : List FetchEvent) :
    edges.foldl (fun t keyInfo => t ++ [FetchEvent.rpush keyInfo.Node.Key login]) t =
      t ++ edges.map (fun k => FetchEvent.rpush k.Node.Key login) := by
  induction edges generalizing t with
  | nil => simp
  | cons k ks ih => simp [List.foldl, ih]

theorem pushKeys_eq (nodes : List userResults) (t : List FetchEvent) :
    pushKeys nodes t = t ++ (specAppends nodes).map (fun p => FetchEvent.rpush p.1 p.2) := by
  unfold pushKeys
  induction nodes generalizing t with
  | nil => simp [specAppends]
  | cons r rs ih =>
    rw [List.foldl, pushKeys_inner, ih]
    simp [specAppends, List.map_flatMap, Function.comp_def]

theorem nodeIdsOf_aux (userIds : List Int) (acc : List String) :
    userIds.foldl (fun nodeIds userID => nodeIds ++ [globalRef userID]) acc =
      acc ++ userIds.map globalRef := by
  induction userIds generalizing acc with
  | nil => simp
  | cons a t ih => simp [List.foldl, ih]

theorem nodeIdsOf_eq_map (userIds : List Int) : nodeIdsOf userIds = userIds.map globalRef := by
  unfold nodeIdsOf
  rw [nodeIdsOf_aux]
  simp

theorem sinkWrites_append (a b : List FetchEvent) :
    sinkWrites (a ++ b) = sinkWrites a ++ sinkWrites b := by
  simp [sinkWrites]

theorem lookups_append (a b : List FetchEvent) :
    lookups (a ++ b) = lookups a ++ lookups b := by
  simp [lookups]

theorem sinkWrites_rpush (l : List (String × String)) :
    sinkWrites (l.map (fun p => FetchEvent.rpush p.1 p.2)) = l := by
  induction l with
  | nil => rfl
  | cons p ps ih =>
    simp only [sinkWrites, List.map_cons, List.filterMap_cons] at ih ⊢
    rw [ih]

theorem lookups_rpush (l : List (String × String)) :
    lookups (l.map (fun p => FetchEvent.rpush p.1 p.2)) = [] := by
  induction l with
  | nil => rfl
  | cons p ps ih =>
    simp only [lookups, List.map_cons, List.filterMap_cons] at ih ⊢
    rw [ih]

theorem sinkWrites_queryRetryEvents (nodeIds : List String) (r e : Nat) :
    sinkWrites (queryRetryEvents nodeIds r e) = [] := by
  induction e with
  | zero => simp [queryRetryEvents, sinkWrites]
  | succ e ih =>
    unfold queryRetryEvents at ih ⊢
    rw [List.range_succ, List.flatMap_append, sinkWrites_append, ih]
    simp [sinkWrites]

theorem fetchSleeps_queryRetryEvents (nodeIds : List String) (r e : Nat) :
    fetchSleeps (queryRetryEvents nodeIds r e) =
      (List.range e).map (fun i => sleepDuration (r + i)) := by
  induction e with
  | zero => simp [queryRetryEvents, fetchSleeps]
  | succ e ih =>
    unfold queryRetryEvents fetchSleeps at ih ⊢
    rw [List.range_succ, List.flatMap_append, List.filterMap_append, ih]
    simp

theorem sleeps_retryEvents (api : ListApi) (o : UserListOptions) (c r e : Nat) :
    sleeps (retryEvents api o c r e) = (List.range e).map (fun i => sleepDuration (r + i)) := by
  induction e with
  | zero => simp [retryEvents, sleeps]
  | succ e ih =>
    unfold retryEvents sleeps at ih ⊢
    rw [List.range_succ, List.flatMap_append, List.filterMap_append, ih]
    simp

theorem queryRun_lookups (api : QueryApi) (nodeIds : List String) (n : Nat) (s : QueryState) :
    ∃ c, lookups (queryRun api nodeIds n s).trace = lookups s.trace ++ List.replicate c nodeIds ∧
      (queryRun api nodeIds n s).calls = s.calls + c ∧ c ≤ n ∧
      (s.done = false → 0 < n → 0 < c) := by
  induction n generalizing s with
  | zero => exact ⟨0, by simp [queryRun], by simp [queryRun], le_refl 0, fun _ h => absurd h (by omega)⟩
  | succ n ih =>
    rw [queryRun]
    cases hd : s.done with
    | true =>
      rw [queryStep_done api nodeIds s hd, queryRun_done api nodeIds n s hd]
      exact ⟨0, by simp, by simp, by omega, fun h => by cases h⟩
    | false =>
      obtain ⟨c, h1, h2, h3, _⟩ := ih (queryStep api nodeIds s)
      have hs : lookups (queryStep api nodeIds s).trace = lookups s.trace ++ [nodeIds] ∧
          (queryStep api nodeIds s).calls = s.calls + 1 := by
        cases hr : queryResolved (api s.calls nodeIds) with
        | true => rw [queryStep_resolved api nodeIds s hd hr]; simp [lookups]
        | false => rw [queryStep_retry api nodeIds s hd hr]; simp [lookups]
      refine ⟨c + 1, ?_, by rw [h2, hs.2]; omega, by omega, fun _ _ => by omega⟩
      rw [h1, hs.1, List.append_assoc]
      congr 1

/-! ## Node references: lemmas -/

theorem sextet_roundtrip :
    ∀ i, i < 64 → decodeSextet (encodeSextet i) = some i ∧ encodeSextet i ≠ '=' := by
  decide

theorem base64_roundtrip :
    ∀ bs : List Nat, (∀ b ∈ bs, b < 256) → base64Decode (base64Encode bs) = some bs
  | [], _ => rfl
  | [a], h => by
    have ha : a < 256 := h a (by simp)
    obtain ⟨x1, x2⟩ := sextet_roundtrip (a / 4) (by omega)
    obtain ⟨y1, y2⟩ := sextet_roundtrip (a % 4 * 16) (by omega)
    simp only [base64Encode, base64Decode, x1, y1, if_true, Option.bind, ne_eq, not_true,
      if_false]
    simp
    omega
  | [a, b], h => by
    have ha : a < 256 := h a (by simp)
    have hb : b < 256 := h b (by simp)
    obtain ⟨x1, x2⟩ := sextet_roundtrip (a / 4) (by omega)
    obtain ⟨y1, y2⟩ := sextet_roundtrip (a % 4 * 16 + b / 16) (by omega)
    obtain ⟨z1, z2⟩ := sextet_roundtrip (b % 16 * 4) (by omega)
    simp only [base64Encode, base64Decode, x1, y1, z1, z2, if_true, Option.bind, ne_eq, not_true,
      if_false]
    simp
    omega
  | a :: b :: c :: rest, h => by
    have ha : a < 256 := h a (by simp)
    have hb : b < 256 := h b (by simp)
    have hc : c < 256 := h c (by simp)
    have ih := base64_roundtrip rest (fun x hx => h x (by simp [hx]))
    obtain ⟨x1, x2⟩ := sextet_roundtrip (a / 4) (by omega)
    obtain ⟨y1, y2⟩ := sextet_roundtrip (a % 4 * 16 + b / 16) (by omega)
    obtain ⟨z1, z2⟩ := sextet_roundtrip (b % 16 * 4 + c / 64) (by omega)
    obtain ⟨w1, w2⟩ := sextet_roundtrip (c % 64) (by omega)
    simp only [base64Encode, base64Decode, x1, y1, z1, w1, w2, ih, if_false, Option.bind,
      Option.map]
    simp
    omega

theorem refChars_bytes :
    ∀ c ∈ refChars, (String.utf8EncodeChar c).map UInt8.toNat = [c.toNat] ∧ c.toNat < 256 ∧
      Char.ofNat c.toNat = c := by
  decide

theorem goBytes_ref (cs : List Char) (h : ∀ c ∈ cs, c ∈ refChars) :
    goBytes cs = cs.map Char.toNat := by
  induction cs with
  | nil => rfl
  | cons c t ih =>
    have hc := (refChars_bytes c (h c (by simp))).1
    have ht := ih (fun x hx => h x (by simp [hx]))
    unfold goBytes at ht ⊢
    rw [List.flatMap_cons, ht, hc]
    rfl

theorem digitChar_facts :
    ∀ d, d < 10 → Nat.digitChar d ∈ refChars ∧ (Nat.digitChar d).toNat = 48 + d ∧
      Nat.digitChar d ≠ '-' := by
  decide

theorem parseDigits_digitChar (acc d : Nat) (hd : d < 10) (cs : List Char) :
    parseDigits acc (Nat.digitChar d :: cs) = parseDigits (acc * 10 + d) cs := by
  have h := (digitChar_facts d hd).2.1
  rw [parseDigits, h, if_pos ⟨by omega, by omega⟩, Nat.add_sub_cancel_left]

theorem toDigitsCore_parse (fuel : Nat) :
    ∀ (n : Nat) (ds : List Char), n < fuel →
      parseDigits 0 (Nat.toDigitsCore 10 fuel n ds) = parseDigits n ds := by
  induction fuel with
  | zero => intro n ds h; omega
  | succ fuel ih =>
    intro n ds h
    rw [Nat.toDigitsCore]
    by_cases h0 : n / 10 = 0
    · simp only [h0, if_true]
      rw [parseDigits_digitChar 0 (n % 10) (Nat.mod_lt _ (by omega))]
      congr 1
      omega
    · simp only [h0, if_false]
      rw [ih (n / 10) _ (by omega), parseDigits_digitChar (n / 10) (n % 10) (Nat.mod_lt _ (by omega))]
      congr 1
      omega

theorem toDigitsCore_shape (fuel : Nat) :
    ∀ (n : Nat) (ds : List Char), 0 < fuel →
      ∃ c pre, Nat.toDigitsCore 10 fuel n ds = c :: pre ++ ds ∧ c ≠ '-' ∧
        ∀ x ∈ c :: pre, x ∈ refChars := by
  induction fuel with
  | zero => intro n ds h; omega
  | succ fuel ih =>
    intro n ds _
    obtain ⟨f1, _, f3⟩ := digitChar_facts (n % 10) (Nat.mod_lt _ (by omega))
    rw [Nat.toDigitsCore]
    by_cases h0 : n / 10 = 0
    · simp only [h0, if_true]
      exact ⟨_, [], rfl, f3, by simpa using f1⟩
    · simp only [h0, if_false]
      cases fuel with
      | zero =>
        rw [Nat.toDigitsCore]
        exact ⟨_, [], rfl, f3, by simpa using f1⟩
      | succ fuel =>
        obtain ⟨c, pre, e, hc, hall⟩ := ih (n / 10) (Nat.digitChar (n % 10) :: ds) (by omega)
        refine ⟨c, pre ++ [Nat.digitChar (n % 10)], by rw [e]; simp, hc, ?_⟩
        intro x hx
        rw [← List.cons_append, List.mem_append] at hx
        rcases hx with hx | hx
        · exact hall x hx
        · rw [List.mem_singleton.1 hx]; exact f1

theorem parseInt_formatInt (i : Int) : parseInt (formatInt i) = some i := by
  obtain ⟨c, pre, e, hc, _⟩ := toDigitsCore_shape (i.natAbs + 1) i.natAbs [] (by omega)
  have hp := toDigitsCore_parse (i.natAbs + 1) i.natAbs [] (by omega)
  rw [e, List.append_nil] at hp
  have hp2 : parseDigits 0 (c :: pre) = some i.natAbs := by rw [hp]; rfl
  unfold formatInt Nat.toDigits
  rw [e, List.append_nil]
  by_cases hneg : i < 0
  · rw [if_pos hneg, parseInt, if_pos rfl, if_neg (by simp), hp2]
    have := Int.ofNat_natAbs_of_nonpos (le_of_lt hneg)
    simp only [Option.map, Option.some.injEq]
    rw [this, neg_neg]
  · rw [if_neg hneg, parseInt, if_neg hc, hp2]
    have := Int.natAbs_of_nonneg (not_lt.1 hneg)
    simp only [Option.map, Option.some.injEq]
    exact this

theorem formatInt_refChars (i : Int) : ∀ c ∈ userTag ++ formatInt i, c ∈ refChars := by
  obtain ⟨c, pre, e, _, hall⟩ := toDigitsCore_shape (i.natAbs + 1) i.natAbs [] (by omega)
  have htag : ∀ x ∈ userTag, x ∈ refChars := by decide
  have hminus : '-' ∈ refChars := by decide
  intro x hx
  unfold formatInt Nat.toDigits at hx
  rw [e] at hx
  simp only [List.append_nil] at hx
  rcases List.mem_append.1 hx with h | h
  · exact htag x h
  · by_cases hneg : i < 0
    · simp only [hneg, if_true] at h
      rcases List.mem_cons.1 h with h | h
      · rw [h]; exact hminus
      · exact hall x h
    · simp only [hneg, if_false] at h
      exact hall x h

theorem splitTag_append (tag rest : List Char) : splitTag tag (tag ++ rest) = some rest := by
  induction tag with
  | nil => cases rest <;> rfl
  | cons t ts ih => simp [splitTag, ih]

theorem decodeGlobalRef_globalRef (i : Int) :
    decodeGlobalRef (globalRef i) = some (userTag, i) := by
  have hall := formatInt_refChars i
  have hbytes := goBytes_ref _ hall
  have hlt : ∀ b ∈ goBytes (userTag ++ formatInt i), b < 256 := by
    rw [hbytes]
    intro b hb
    obtain ⟨c, hc, rfl⟩ := List.mem_map.1 hb
    exact (refChars_bytes c (hall c hc)).2.1
  have hback : (goBytes (userTag ++ formatInt i)).map Char.ofNat = userTag ++ formatInt i := by
    rw [hbytes, List.map_map]
    conv_rhs => rw [← List.map_id (userTag ++ formatInt i)]
    apply List.map_congr_left
    intro c hc
    exact (refChars_bytes c (hall c hc)).2.2
  unfold decodeGlobalRef globalRef
  simp only [base64_roundtrip _ hlt, Option.bind, hback, splitTag_append, parseInt_formatInt,
    Option.map]

/-! ## Units of work: lemmas -/

theorem unit_start_retries (api : ListApi) (k : Nat)
    (hd : (enumerateGithubUsers api k).done = false)
    (hstart : k = 0 ∨ ∃ j prev, k = j + 1 ∧
      api j (enumerateGithubUsers api j).opts = ListResult.ok prev) :
    (enumerateGithubUsers api k).retries = 0 := by
  rcases hstart with h | ⟨j, prev, hk, hr⟩
  · subst h; rfl
  · subst hk
    have e : enumerateGithubUsers api (j + 1) = enumStep api (enumerateGithubUsers api j) :=
      enumRun_succ api j enumInit
    rw [e] at hd ⊢
    cases hj : (enumerateGithubUsers api j).done with
    | true => rw [enumStep_done api _ hj, hj] at hd; cases hd
    | false =>
      have hc := (enum_calls_inv api j).2.2.1 hj
      by_cases hne : prev = []
      · subst hne
        rw [enumStep_empty api _ hj (by rw [hc]; exact hr)] at hd
        cases hd
      · rw [enumStep_page api _ prev hj (by rw [hc]; exact hr) hne]

theorem enum_unit (api : ListApi) (s : EnumState) (e : Nat) (ids : List Int)
    (hd : s.done = false)
    (hf : ∀ i, i < e → ∃ rl, api (s.calls + i) s.opts = ListResult.fail rl)
    (hr : api (s.calls + e) s.opts = ListResult.ok ids) :
    (enumRun api (e + 1) s).calls = s.calls + e + 1 ∧
      (enumRun api (e + 1) s).trace =
        s.trace ++ retryEvents api s.opts s.calls s.retries e ++
          (Event.listAll s.opts :: Event.log Level.debug :: Event.send ids ::
            (if ids = [] then [Event.log Level.info, Event.close, Event.wgDone] else [])) ∧
      ((enumRun api (e + 1) s).done = false → (enumRun api (e + 1) s).retries = 0) := by
  have hrun := enumRun_fails api e s hd hf
  rw [enumRun_succ, hrun]
  by_cases hne : ids = []
  · subst hne
    rw [enumStep_empty api _ (by exact hd) (by exact hr)]
    simp
  · rw [enumStep_page api _ ids (by exact hd) (by exact hr) hne]
    simp [hne]

theorem batch_resolves (api : QueryApi) (n e : Nat) (st : FetchState) (userIds : List Int)
    (hn : e < n)
    (hf : ∀ i, i < e → queryResolved (api (st.calls + i) (nodeIdsOf userIds)) = false)
    (hr : queryResolved (api (st.calls + e) (nodeIdsOf userIds)) = true) :
    getUserKeysBatch api n st userIds =
      { st with
        calls := st.calls + e + 1
        trace := st.trace ++ queryRetryEvents (nodeIdsOf userIds) 0 e ++
          [FetchEvent.query (nodeIdsOf userIds)] ++
          (specAppends
            (heldQuery api (nodeIdsOf userIds) { Nodes := [] } st.calls (e + 1)).Nodes).map
            (fun p => FetchEvent.rpush p.1 p.2) } := by
  obtain ⟨h1, h2, h3, h4⟩ := queryRun_resolves api (nodeIdsOf userIds) e n
    { query := { Nodes := [] }, retries := 0, calls := st.calls, trace := st.trace, done := false }
    rfl hn hf hr
  unfold getUserKeysBatch queryWithRetries
  simp only [h1, if_true, h2, h3, h4, pushKeys_eq]

theorem batch_done (api : QueryApi) (n : Nat) (st : FetchState) (userIds : List Int)
    (h : (queryWithRetries api { Nodes := [] } (nodeIdsOf userIds) st.calls st.trace n).done
      = true) :
    getUserKeysBatch api n st userIds =
      { st with
        calls := (queryWithRetries api { Nodes := [] } (nodeIdsOf userIds) st.calls st.trace n).calls
        trace := pushKeys
          (queryWithRetries api { Nodes := [] } (nodeIdsOf userIds) st.calls st.trace n).query.Nodes
          (queryWithRetries api { Nodes := [] } (nodeIdsOf userIds) st.calls st.trace n).trace } := by
  simp [getUserKeysBatch, h]

theorem batch_exhausted (api : QueryApi) (n : Nat) (st : FetchState) (userIds : List Int)
    (h : (queryWithRetries api { Nodes := [] } (nodeIdsOf userIds) st.calls st.trace n).done
      = false) :
    getUserKeysBatch api n st userIds =
      { st with
        calls := (queryWithRetries api { Nodes := [] } (nodeIdsOf userIds) st.calls st.trace n).calls
        trace := (queryWithRetries api { Nodes := [] } (nodeIdsOf userIds) st.calls st.trace n).trace
        exhausted := true } := by
  simp [getUserKeysBatch, h]

theorem batch_lookups (api : QueryApi) (n : Nat) (st : FetchState) (userIds : List Int) :
    ∃ c, lookups (getUserKeysBatch api n st userIds).trace =
        lookups st.trace ++ List.replicate c (nodeIdsOf userIds) ∧
      (getUserKeysBatch api n st userIds).calls = st.calls + c ∧
      (0 < n → 0 < c) ∧
      ((getUserKeysBatch api n st userIds).exhausted = false → 0 < c) ∧
      (getUserKeysBatch api n st userIds).returned = st.returned := by
  obtain ⟨c, h1, h2, _, h4⟩ := queryRun_lookups api (nodeIdsOf userIds) n
    { query := { Nodes := [] }, retries := 0, calls := st.calls, trace := st.trace, done := false }
  have h4 := h4 rfl
  cases hq : (queryWithRetries api { Nodes := [] } (nodeIdsOf userIds) st.calls st.trace n).done with
  | true =>
    rw [batch_done api n st userIds hq]
    refine ⟨c, ?_, h2, h4, fun _ => ?_, rfl⟩
    · simp only [pushKeys_eq, lookups_append, lookups_rpush, List.append_nil]
      exact h1
    · cases n with
      | zero => simp [queryWithRetries, queryRun] at hq
      | succ n => exact h4 (by omega)
  | false =>
    rw [batch_exhausted api n st userIds hq]
    exact ⟨c, h1, h2, h4, fun h => by simp at h, rfl⟩

theorem getUserKeys_lookups (api : QueryApi) (n : Nat) :
    ∀ (batches : List (List Int)) (st : FetchState),
      ∃ counts : List Nat, counts.length ≤ batches.length ∧
        lookups (getUserKeys api n batches st).trace =
          lookups st.trace ++
            (List.zipWith (fun b c => List.replicate c (nodeIdsOf b)) batches counts).flatten ∧
        (st.returned = false → (getUserKeys api n batches st).returned = true →
          counts.length = batches.length ∧ ∀ c ∈ counts, 0 < c) := by
  intro batches
  induction batches with
  | nil =>
    intro st
    exact ⟨[], le_refl _, by simp [getUserKeys, lookups], fun _ _ => ⟨rfl, by simp⟩⟩
  | cons b rest ih =>
    intro st
    obtain ⟨c, h1, _, _, h4, h5⟩ := batch_lookups api n st b
    rw [getUserKeys]
    cases hx : (getUserKeysBatch api n st b).exhausted with
    | true =>
      simp only [if_true]
      refine ⟨[c], by simp, by rw [h1]; simp, fun hs hret => ?_⟩
      rw [h5, hs] at hret
      cases hret
    | false =>
      simp only [Bool.false_eq_true, if_false]
      obtain ⟨counts, g1, g2, g3⟩ := ih (getUserKeysBatch api n st b)
      refine ⟨c :: counts, by simp; omega, by rw [g2, h1]; simp, fun hs hret => ?_⟩
      obtain ⟨k1, k2⟩ := g3 (by rw [h5]; exact hs) hret
      refine ⟨by simp [k1], ?_⟩
      intro x hx'
      rcases List.mem_cons.1 hx' with h | h
      · rw [h]; exact h4 hx
      · exact k2 x h

/-! ## Properties of the enumerator -/

/-- C1: for every directory `L` (positive, strictly increasing IDs) served in
pages of the first 100 IDs above the cursor, with finitely many failed calls
before each page, `enumerateGithubUsers` returns; the batches it sent,
concatenated in emission order, are exactly `L`; and its trace ends with the
last send followed by the one `close` of the channel. -/
theorem enumerate_sends_directory (L : List Int) (failing : Nat → Option Bool)
    (hL : IsDirectory L) (hfin : FinitelyFailing failing) :
    ∃ n, ∀ m, n ≤ m →
      (enumerateGithubUsers (directoryApi L failing) m).done = true ∧
      (sentBatches (enumerateGithubUsers (directoryApi L failing) m).trace).flatten = L ∧
      ∃ pre, (enumerateGithubUsers (directoryApi L failing) m).trace =
          pre ++ [Event.send [], Event.log Level.info, Event.close, Event.wgDone] ∧
        Event.close ∉ pre := by
  obtain ⟨n, pages, h1, h2, h3, _, _⟩ := enumerate_directory L failing hL hfin
  refine ⟨n, fun m hm => ?_⟩
  rw [enumerate_stable _ n m hm h1]
  refine ⟨h1, ?_, (enum_close_inv _ n).2 h1⟩
  rw [h2]
  simp [h3]

/-- Witness of C1: the directory `[1, 2, 3]` with a rate-limited second call. -/
theorem enumerate_sends_directory_witness :
    ∃ n, ∀ m, n ≤ m →
      (enumerateGithubUsers
        (directoryApi [1, 2, 3] (fun k => if k = 1 then some true else none)) m).done = true ∧
      (sentBatches (enumerateGithubUsers
        (directoryApi [1, 2, 3] (fun k => if k = 1 then some true else none)) m).trace).flatten
          = [1, 2, 3] ∧
      ∃ pre, (enumerateGithubUsers
          (directoryApi [1, 2, 3] (fun k => if k = 1 then some true else none)) m).trace =
          pre ++ [Event.send [], Event.log Level.info, Event.close, Event.wgDone] ∧
        Event.close ∉ pre :=
  enumerate_sends_directory [1, 2, 3] (fun k => if k = 1 then some true else none)
    ⟨by decide, by decide⟩
    (fun k => ⟨k + 2, by omega, by simp⟩)

/-- C2, as stated, fails: for the directory `[1, 2, 3]` (one page of three IDs,
page size 100) the enumerator returns after two calls having sent two batches,
the page and then the empty batch of the empty page, where `ceil(3/100) = 1`. -/
theorem enumerate_sends_empty_batch :
    (enumerateGithubUsers (directoryApi [1, 2, 3] (fun _ => none)) 2).done = true ∧
      sentBatches (enumerateGithubUsers (directoryApi [1, 2, 3] (fun _ => none)) 2).trace
        = [[1, 2, 3], []] ∧
      (sentBatches (enumerateGithubUsers (directoryApi [1, 2, 3] (fun _ => none)) 2).trace).length
        ≠ (([1, 2, 3] : List Int).length + 99) / 100 := by
  decide

/-- C2, amended: every successful page, empty or not, is sent (one send
each) and a failed call sends nothing; for a directory of `N` accounts the
enumerator returns having sent exactly `ceil(N/100) + 1` batches, of which all
but the last are non-empty and the last, sent just before the channel is
closed, is the empty batch of the empty page. -/
theorem enumerate_send_count (L : List Int) (failing : Nat → Option Bool)
    (hL : IsDirectory L) (hfin : FinitelyFailing failing) :
    (∀ (api : ListApi) (s : EnumState) (ids : List Int), s.done = false →
        api s.calls s.opts = ListResult.ok ids →
        sentBatches (enumStep api s).trace = sentBatches s.trace ++ [ids]) ∧
    (∀ (api : ListApi) (s : EnumState) (rl : Bool), s.done = false →
        api s.calls s.opts = ListResult.fail rl →
        sentBatches (enumStep api s).trace = sentBatches s.trace) ∧
    ∃ n, ∀ m, n ≤ m →
      (enumerateGithubUsers (directoryApi L failing) m).done = true ∧
      (sentBatches (enumerateGithubUsers (directoryApi L failing) m).trace).length
        = (L.length + 99) / 100 + 1 ∧
      ∃ pages, sentBatches (enumerateGithubUsers (directoryApi L failing) m).trace
          = pages ++ [[]] ∧ (∀ p ∈ pages, p ≠ []) ∧
        ∃ pre, (enumerateGithubUsers (directoryApi L failing) m).trace =
          pre ++ [Event.send [], Event.log Level.info, Event.close, Event.wgDone] := by
  refine ⟨?_, ?_, ?_⟩
  · intro api s ids hd hr
    by_cases hne : ids = []
    · subst hne
      rw [enumStep_empty api s hd hr]
      simp [sentBatches]
    · rw [enumStep_page api s ids hd hr hne]
      simp [sentBatches]
  · intro api s rl hd hr
    rw [enumStep_fail api s rl hd hr]
    simp [sentBatches]
  · obtain ⟨n, pages, h1, h2, _, h4, h5⟩ := enumerate_directory L failing hL hfin
    refine ⟨n, fun m hm => ?_⟩
    rw [enumerate_stable _ n m hm h1]
    obtain ⟨pre, hpre, _⟩ := (enum_close_inv _ n).2 h1
    exact ⟨h1, by rw [h2]; simp [h5], pages, h2, h4, pre, hpre⟩

/-- Witness of the amended C2: the directory `[1, 2, 3]` with no failed call. -/
theorem enumerate_send_count_witness :
    ∃ n, ∀ m, n ≤ m →
      (enumerateGithubUsers (directoryApi [1, 2, 3] (fun _ => none)) m).done = true ∧
      (sentBatches (enumerateGithubUsers (directoryApi [1, 2, 3] (fun _ => none)) m).trace).length
        = (([1, 2, 3] : List Int).length + 99) / 100 + 1 ∧
      ∃ pages, sentBatches (enumerateGithubUsers (directoryApi [1, 2, 3] (fun _ => none)) m).trace
          = pages ++ [[]] ∧ (∀ p ∈ pages, p ≠ []) ∧
        ∃ pre, (enumerateGithubUsers (directoryApi [1, 2, 3] (fun _ => none)) m).trace =
          pre ++ [Event.send [], Event.log Level.info, Event.close, Event.wgDone] :=
  (enumerate_send_count [1, 2, 3] (fun _ => none) ⟨by decide, by decide⟩
    (fun k => ⟨k, le_refl k, rfl⟩)).2.2

/-- C3: the first list call uses cursor 0; after a successful non-empty page
the next call uses the last ID of that page as cursor; after a failed call
(rate limit or any other error) the next call uses the cursor of the failed
one.  The cursors are those recorded in the trace of the calls. -/
theorem cursor_follows_pages (api : ListApi) :
    cursorOfCall api 0 = some 0 ∧
    (∀ (k : Nat) (c : Int) (ids : List Int) (hne : ids ≠ []), cursorOfCall api k = some c →
        api k { Since := c, PerPage := 100 } = ListResult.ok ids →
        cursorOfCall api (k + 1) = some (ids.getLast hne)) ∧
    (∀ (k : Nat) (c : Int) (rl : Bool), cursorOfCall api k = some c →
        api k { Since := c, PerPage := 100 } = ListResult.fail rl →
        cursorOfCall api (k + 1) = some c) := by
  have key : ∀ (k : Nat) (c : Int), cursorOfCall api k = some c →
      (enumerateGithubUsers api k).done = false ∧
      (enumerateGithubUsers api k).calls = k ∧
      (enumerateGithubUsers api k).opts = { Since := c, PerPage := 100 } := by
    intro k c hc
    rw [cursorOfCall_eq] at hc
    obtain ⟨_, _, h3, h4⟩ := enum_calls_inv api k
    cases hd : (enumerateGithubUsers api k).done with
    | true => simp [hd] at hc
    | false =>
      simp [hd] at hc
      refine ⟨rfl, h3 hd, ?_⟩
      rw [← hc, ← h4]
  refine ⟨?_, ?_, ?_⟩
  · rw [cursorOfCall_eq]
    simp [enumerateGithubUsers, enumRun, enumInit]
  · intro k c ids hne hc hr
    obtain ⟨hd, hk, ho⟩ := key k c hc
    have e : enumerateGithubUsers api (k + 1) = enumStep api (enumerateGithubUsers api k) :=
      enumRun_succ api k enumInit
    rw [cursorOfCall_eq, e, enumStep_page api _ ids hd (by rw [hk, ho]; exact hr) hne]
    simp [hd, lastID_eq_getLast ids hne]
  · intro k c rl hc hr
    obtain ⟨hd, hk, ho⟩ := key k c hc
    have e : enumerateGithubUsers api (k + 1) = enumStep api (enumerateGithubUsers api k) :=
      enumRun_succ api k enumInit
    rw [cursorOfCall_eq, e, enumStep_fail api _ rl hd (by rw [hk, ho]; exact hr)]
    simp [hd, ho]

/-- Witness of C3: against the directory `[1, 2, 3]` whose second call is
rate-limited, the calls 0, 1 and 2 use the cursors 0, 3 and 3. -/
theorem cursor_follows_pages_witness :
    cursorOfCall (directoryApi [1, 2, 3] (fun k => if k = 1 then some true else none)) 0 = some 0 ∧
    cursorOfCall (directoryApi [1, 2, 3] (fun k => if k = 1 then some true else none)) 1 = some 3 ∧
    cursorOfCall (directoryApi [1, 2, 3] (fun k => if k = 1 then some true else none)) 2 = some 3 :=
  have h := cursor_follows_pages (directoryApi [1, 2, 3] (fun k => if k = 1 then some true else none))
  have h1 := h.2.1 0 0 [1, 2, 3] (by decide) h.1 (by decide)
  ⟨h.1, h1, h.2.2 1 3 true h1 (by decide)⟩

/-! ## Properties of the retry loops -/

/-- C4: when the call for one unit of work fails `e` times and then succeeds,
the stage issues exactly `e + 1` calls for the unit, sleeps between them for
the waits of the attempt counters `0, 1, ..., e - 1` in that order, and starts
the next unit with attempt counter 0.  For `enumerateGithubUsers` a unit (one
page) starts at the first call or after a successful call; for
`queryWithRetries` a unit (one batch) is one invocation. -/
theorem retry_counts (e : Nat) :
    (∀ (api : ListApi) (k : Nat) (ids : List Int),
      (enumerateGithubUsers api k).done = false →
      (k = 0 ∨ ∃ j prev, k = j + 1 ∧
        api j (enumerateGithubUsers api j).opts = ListResult.ok prev) →
      (∀ i, i < e →
        ∃ rl, api (k + i) (enumerateGithubUsers api k).opts = ListResult.fail rl) →
      api (k + e) (enumerateGithubUsers api k).opts = ListResult.ok ids →
      (enumerateGithubUsers api (k + (e + 1))).calls = k + e + 1 ∧
      callCursors (enumerateGithubUsers api (k + (e + 1))).trace =
        callCursors (enumerateGithubUsers api k).trace ++
          List.replicate (e + 1) (enumerateGithubUsers api k).opts.Since ∧
      sleeps (enumerateGithubUsers api (k + (e + 1))).trace =
        sleeps (enumerateGithubUsers api k).trace ++ (List.range e).map sleepDuration ∧
      sentBatches (enumerateGithubUsers api (k + (e + 1))).trace =
        sentBatches (enumerateGithubUsers api k).trace ++ [ids] ∧
      ((enumerateGithubUsers api (k + (e + 1))).done = false →
        (enumerateGithubUsers api (k + (e + 1))).retries = 0)) ∧
    (∀ (api : QueryApi) (query : userQuery) (nodeIds : List String) (calls : Nat)
        (trace : List FetchEvent) (n : Nat), e < n →
      (∀ i, i < e → queryResolved (api (calls + i) nodeIds) = false) →
      queryResolved (api (calls + e) nodeIds) = true →
      (queryWithRetries api query nodeIds calls trace n).done = true ∧
      (queryWithRetries api query nodeIds calls trace n).calls = calls + e + 1 ∧
      lookups (queryWithRetries api query nodeIds calls trace n).trace =
        lookups trace ++ List.replicate (e + 1) nodeIds ∧
      fetchSleeps (queryWithRetries api query nodeIds calls trace n).trace =
        fetchSleeps trace ++ (List.range e).map sleepDuration) := by
  constructor
  · intro api k ids hd hstart hf hr
    have hk := (enum_calls_inv api k).2.2.1 hd
    have h0 := unit_start_retries api k hd hstart
    obtain ⟨u1, u2, u3⟩ := enum_unit api (enumerateGithubUsers api k) e ids hd
      (by rw [hk]; exact hf) (by rw [hk]; exact hr)
    have e1 : enumerateGithubUsers api (k + (e + 1)) =
        enumRun api (e + 1) (enumerateGithubUsers api k) := enumRun_add api k (e + 1) enumInit
    rw [e1]
    refine ⟨by rw [u1, hk], ?_, ?_, ?_, u3⟩
    · rw [u2, h0]
      have hcur : ∀ m, callCursors
          (retryEvents api (enumerateGithubUsers api k).opts (enumerateGithubUsers api k).calls 0 m)
          = List.replicate m (enumerateGithubUsers api k).opts.Since := by
        intro m
        induction m with
        | zero => simp [retryEvents, callCursors]
        | succ m ih =>
          unfold retryEvents at ih ⊢
          rw [List.range_succ, List.flatMap_append, callCursors_append, ih,
            List.replicate_succ']
          simp [callCursors]
      rw [callCursors_append, callCursors_append, hcur, List.replicate_succ', List.append_assoc]
      congr 2
      by_cases hne : ids = [] <;> simp [callCursors, hne]
    · rw [u2, h0]
      unfold sleeps
      rw [List.filterMap_append, List.filterMap_append]
      have := sleeps_retryEvents api (enumerateGithubUsers api k).opts
        (enumerateGithubUsers api k).calls 0 e
      unfold sleeps at this
      rw [this]
      by_cases hne : ids = [] <;> simp [hne]
    · rw [u2, sentBatches_append, sentBatches_append, sentBatches_retryEvents]
      by_cases hne : ids = [] <;> simp [sentBatches, hne]
  · intro api query nodeIds calls trace n hn hf hr
    obtain ⟨h1, h2, _, h4⟩ := queryRun_resolves api nodeIds e n
      { query := query, retries := 0, calls := calls, trace := trace, done := false }
      rfl hn hf hr
    unfold queryWithRetries
    refine ⟨h1, h2, ?_, ?_⟩
    · rw [h4]
      have hl : ∀ m, lookups (queryRetryEvents nodeIds 0 m) = List.replicate m nodeIds := by
        intro m
        induction m with
        | zero => simp [queryRetryEvents, lookups]
        | succ m ih =>
          unfold queryRetryEvents at ih ⊢
          rw [List.range_succ, List.flatMap_append, lookups_append, ih, List.replicate_succ']
          simp [lookups]
      rw [lookups_append, lookups_append, hl, List.replicate_succ', List.append_assoc]
      simp [lookups]
    · rw [h4]
      unfold fetchSleeps
      rw [List.filterMap_append, List.filterMap_append]
      have := fetchSleeps_queryRetryEvents nodeIds 0 e
      unfold fetchSleeps at this
      rw [this]
      simp

/-- Witness of C4: against the directory `[1, 2, 3]` the second page is
requested at call 1, which is rate-limited, and again at call 2, which
succeeds; and a lookup that fails twice with a transient error and then
succeeds is called three times and sleeps for the waits of counters 0 and 1. -/
theorem retry_counts_witness :
    ((enumerateGithubUsers
        (directoryApi [1, 2, 3] (fun k => if k = 1 then some true else none)) (1 + (1 + 1))).calls
        = 1 + 1 + 1 ∧
      sleeps (enumerateGithubUsers
        (directoryApi [1, 2, 3] (fun k => if k = 1 then some true else none)) (1 + (1 + 1))).trace =
        sleeps (enumerateGithubUsers
          (directoryApi [1, 2, 3] (fun k => if k = 1 then some true else none)) 1).trace ++
          (List.range 1).map sleepDuration) ∧
    ((queryWithRetries flakyApi { Nodes := [] } ["NDpVc2VyMQ=="] 0 [] 5).calls = 0 + 2 + 1 ∧
      fetchSleeps (queryWithRetries flakyApi { Nodes := [] } ["NDpVc2VyMQ=="] 0 [] 5).trace =
        fetchSleeps [] ++ (List.range 2).map sleepDuration) :=
  have g := (retry_counts 1).1
    (directoryApi [1, 2, 3] (fun k => if k = 1 then some true else none)) 1 []
    (by decide) (Or.inr ⟨0, [1, 2, 3], rfl, by decide⟩)
    (fun i hi => ⟨true, by obtain rfl : i = 0 := by omega
                           decide⟩)
    (by decide)
  have h := (retry_counts 2).2 flakyApi { Nodes := [] } ["NDpVc2VyMQ=="] 0 [] 5
    (by decide) (by decide) (by decide)
  ⟨⟨g.1, g.2.2.1⟩, ⟨h.2.1, h.2.2.2⟩⟩

theorem queryResolved_iff (r : QueryResult) :
    queryResolved r = true ↔
      r.err = none ∨ ∃ msg, r.err = some msg ∧ resolutionErrorText <+: msg.data := by
  unfold queryResolved resolutionErrorMatch
  cases h : r.err with
  | none => simp
  | some msg => simp [List.isPrefixOf_iff_prefix]

/-- C5: an iteration of `queryWithRetries` leaves the loop exactly when its
lookup returned no error or an error whose message starts with the resolution
error text; then no further call is made, the records of that response are
in `*query`, and `getUserKeys` pushes them to the store; on any other error the
iteration logs, sleeps and the next iteration repeats the lookup with the same
`nodeIds`. -/
theorem query_stops_iff (api : QueryApi) :
    (∀ (nodeIds : List String) (s : QueryState), s.done = false →
      ((queryStep api nodeIds s).done = true ↔
        (api s.calls nodeIds).err = none ∨
          ∃ msg, (api s.calls nodeIds).err = some msg ∧ resolutionErrorText <+: msg.data)) ∧
    (∀ (nodeIds : List String) (s : QueryState), s.done = false →
      (queryStep api nodeIds s).done = true →
      (queryStep api nodeIds s).trace = s.trace ++ [FetchEvent.query nodeIds] ∧
      (queryStep api nodeIds s).query = storeData s.query (api s.calls nodeIds) ∧
      (∀ nodes, (api s.calls nodeIds).data = some nodes →
        (queryStep api nodeIds s).query.Nodes = nodes) ∧
      ∀ n, queryRun api nodeIds n (queryStep api nodeIds s) = queryStep api nodeIds s) ∧
    (∀ (nodeIds : List String) (s : QueryState), s.done = false →
      (queryStep api nodeIds s).done = false →
      (queryStep api nodeIds s).trace =
        s.trace ++ [FetchEvent.query nodeIds, FetchEvent.log Level.debug,
          FetchEvent.sleep (sleepDuration s.retries)] ∧
      ∃ rest, (queryStep api nodeIds (queryStep api nodeIds s)).trace =
        (queryStep api nodeIds s).trace ++ FetchEvent.query nodeIds :: rest) ∧
    (∀ (st : FetchState) (userIds : List Int) (msg : String) (n e : Nat), e < n →
      (∀ i, i < e → queryResolved (api (st.calls + i) (nodeIdsOf userIds)) = false) →
      (api (st.calls + e) (nodeIdsOf userIds)).err = some msg →
      resolutionErrorText <+: msg.data →
      (getUserKeysBatch api n st userIds).calls = st.calls + e + 1 ∧
      (getUserKeysBatch api n st userIds).exhausted = st.exhausted ∧
      sinkWrites (getUserKeysBatch api n st userIds).trace =
        sinkWrites st.trace ++ specAppends
          (heldQuery api (nodeIdsOf userIds) { Nodes := [] } st.calls (e + 1)).Nodes ∧
      (∀ nodes, (api (st.calls + e) (nodeIdsOf userIds)).data = some nodes →
        sinkWrites (getUserKeysBatch api n st userIds).trace =
          sinkWrites st.trace ++ specAppends nodes)) := by
  refine ⟨?_, ?_, ?_, ?_⟩
  · intro nodeIds s hd
    rw [← queryResolved_iff]
    cases hr : queryResolved (api s.calls nodeIds) with
    | true => rw [queryStep_resolved api nodeIds s hd hr]
    | false => rw [queryStep_retry api nodeIds s hd hr]; simp [hd]
  · intro nodeIds s hd hdone
    cases hr : queryResolved (api s.calls nodeIds) with
    | true =>
      have hs := queryStep_resolved api nodeIds s hd hr
      refine ⟨by rw [hs], by rw [hs], ?_, fun n => queryRun_done api nodeIds n _ hdone⟩
      intro nodes hdata
      rw [hs]
      simp [storeData, hdata]
    | false =>
      rw [queryStep_retry api nodeIds s hd hr] at hdone
      rw [hd] at hdone
      cases hdone
  · intro nodeIds s hd hnot
    cases hr : queryResolved (api s.calls nodeIds) with
    | true =>
      rw [queryStep_resolved api nodeIds s hd hr] at hnot
      cases hnot
    | false =>
      refine ⟨by rw [queryStep_retry api nodeIds s hd hr], ?_⟩
      cases hr2 : queryResolved
          (api (queryStep api nodeIds s).calls nodeIds) with
      | true =>
        rw [queryStep_resolved api nodeIds (queryStep api nodeIds s) hnot hr2]
        exact ⟨[], rfl⟩
      | false =>
        rw [queryStep_retry api nodeIds (queryStep api nodeIds s) hnot hr2]
        exact ⟨_, rfl⟩
  · intro st userIds msg n e hn hf herr hpre
    have hr : queryResolved (api (st.calls + e) (nodeIdsOf userIds)) = true :=
      (queryResolved_iff _).2 (Or.inr ⟨msg, herr, hpre⟩)
    rw [batch_resolves api n e st userIds hn hf hr]
    have hw : sinkWrites (st.trace ++ queryRetryEvents (nodeIdsOf userIds) 0 e ++
          [FetchEvent.query (nodeIdsOf userIds)] ++
          (specAppends
            (heldQuery api (nodeIdsOf userIds) { Nodes := [] } st.calls (e + 1)).Nodes).map
            (fun p => FetchEvent.rpush p.1 p.2)) =
        sinkWrites st.trace ++ specAppends
          (heldQuery api (nodeIdsOf userIds) { Nodes := [] } st.calls (e + 1)).Nodes := by
      simp only [sinkWrites_append, sinkWrites_queryRetryEvents, sinkWrites_rpush]
      simp [sinkWrites]
    refine ⟨rfl, rfl, hw, ?_⟩
    intro nodes hdata
    rw [← heldQuery_data api (nodeIdsOf userIds) { Nodes := [] } st.calls e nodes hdata]
    exact hw

/-- Witness of C5: the first lookup fails with a transient error, the second
returns one record together with a resolution error; the batch ends after
two calls and the key of the record is pushed. -/
theorem query_stops_iff_witness :
    (getUserKeysBatch partialApi 5 fetchInit [1, 2]).calls = 0 + 1 + 1 ∧
    sinkWrites (getUserKeysBatch partialApi 5 fetchInit [1, 2]).trace = [] ++ [("k1", "a")] :=
  have h := (query_stops_iff partialApi).2.2.2
    fetchInit [1, 2] "Could not resolve to a node with the global id of NDpVc2VyMg==" 5 1
    (by decide) (by decide) (by decide) (by decide)
  ⟨h.1, h.2.2.2
    [{ User := { Login := "a", PublicKeys := { Edges := [{ Node := { Key := "k1" } }] } } }]
    (by decide)⟩

/-! ## Properties of the node references and of the store appends -/

/-- The reference of account 1, evaluated. -/
theorem globalRef_one : globalRef 1 = "NDpVc2VyMQ==" := by decide

/-- C6: for every account ID in `[0, 2^63 - 1]` the node reference is the
padded standard base64 text of the bytes of `4:User` followed by the decimal
digits of the ID; decoding it (base64-decode, split off the tag, read the
decimal remainder) gives back the tag and the ID; hence two IDs with the same
reference are equal. -/
theorem globalRef_roundtrip (id : Int) (h0 : 0 ≤ id) (h1 : id ≤ 2 ^ 63 - 1) :
    globalRef id = String.mk (base64Encode (goBytes ("4:User".toList ++ formatInt id))) ∧
    goBytes ("4:User".toList ++ formatInt id) =
      [52, 58, 85, 115, 101, 114] ++ (Nat.toDigits 10 id.toNat).map Char.toNat ∧
    decodeGlobalRef (globalRef id) = some ("4:User".toList, id) ∧
    ∀ id' : Int, 0 ≤ id' → id' ≤ 2 ^ 63 - 1 → globalRef id' = globalRef id → id' = id := by
  refine ⟨rfl, ?_, decodeGlobalRef_globalRef id, ?_⟩
  · have hb := goBytes_ref _ (formatInt_refChars id)
    have hf : formatInt id = Nat.toDigits 10 id.toNat := by
      unfold formatInt
      rw [if_neg (not_lt.2 h0)]
      congr 1
      omega
    change goBytes (userTag ++ formatInt id) = _
    rw [hb, hf, List.map_append]
    rfl
  · intro id' _ _ heq
    have h := decodeGlobalRef_globalRef id'
    rw [heq, decodeGlobalRef_globalRef id] at h
    simp only [Option.some.injEq, Prod.mk.injEq, true_and] at h
    exact h.symm

/-- Witness of C6: the reference of account 1 decodes to the tag and 1. -/
theorem globalRef_roundtrip_witness :
    decodeGlobalRef (globalRef 1) = some ("4:User".toList, 1) :=
  (globalRef_roundtrip 1 (by decide) (by decide)).2.2.1

/-- C7, as stated, fails: with `staleApi` the lookup of the batch `[1]` is
resolved at its third call by a resolution error whose response carries no
record, yet `getUserKeys` pushes `(k1, a)`, the record that the first, failed
response left in `*query`. -/
theorem stale_records_pushed :
    queryResolved (staleApi 0 (nodeIdsOf [1])) = false ∧
    queryResolved (staleApi 1 (nodeIdsOf [1])) = false ∧
    queryResolved (staleApi 2 (nodeIdsOf [1])) = true ∧
    responseRecords (staleApi 2 (nodeIdsOf [1])) = [] ∧
    (getUserKeys staleApi 3 [[1]] fetchInit).returned = true ∧
    (getUserKeys staleApi 3 [[1]] fetchInit).calls = 3 ∧
    sinkWrites (getUserKeys staleApi 3 [[1]] fetchInit).trace = [("k1", "a")] ∧
    sinkWrites (getUserKeys staleApi 3 [[1]] fetchInit).trace ≠
      specAppends (responseRecords (staleApi 2 (nodeIdsOf [1]))) := by
  decide

/-- C7, amended: for the records `*query` holds when the lookup of a batch is
resolved, `getUserKeys` pushes exactly the pairs `(key, login)` of every record
and every key of the record, in record order and in key order within a record,
and nothing else; a record without keys contributes nothing.  These records
are those of the last response of the batch that carried data: those of the
resolved response when it carries data, those of an earlier, failed response
when no later response of the batch carried data, and none when no response
did.  The records `{a, [k1]}`, an empty record and `{c, [k2, k3]}` give
`(k1, a)`, `(k2, c)`, `(k3, c)`. -/
theorem pushes_every_key (api : QueryApi) :
    (∀ (nodes : List userResults) (t : List FetchEvent),
      pushKeys nodes t = t ++ (specAppends nodes).map (fun p => FetchEvent.rpush p.1 p.2)) ∧
    (∀ (st : FetchState) (userIds : List Int) (n e : Nat), e < n →
      (∀ i, i < e → queryResolved (api (st.calls + i) (nodeIdsOf userIds)) = false) →
      queryResolved (api (st.calls + e) (nodeIdsOf userIds)) = true →
      sinkWrites (getUserKeysBatch api n st userIds).trace =
        sinkWrites st.trace ++ specAppends
          (heldQuery api (nodeIdsOf userIds) { Nodes := [] } st.calls (e + 1)).Nodes ∧
      (∀ (j : Nat) (nodes : List userResults), j ≤ e →
        (api (st.calls + j) (nodeIdsOf userIds)).data = some nodes →
        (∀ i, j < i → i ≤ e → (api (st.calls + i) (nodeIdsOf userIds)).data = none) →
        sinkWrites (getUserKeysBatch api n st userIds).trace =
          sinkWrites st.trace ++ specAppends nodes) ∧
      ((∀ i, i ≤ e → (api (st.calls + i) (nodeIdsOf userIds)).data = none) →
        sinkWrites (getUserKeysBatch api n st userIds).trace = sinkWrites st.trace)) ∧
    (∀ (a b : List userResults) (r : userResults), r.User.PublicKeys.Edges = [] →
      specAppends (a ++ r :: b) = specAppends (a ++ b)) ∧
    sinkWrites (pushKeys scenarioRecords []) = [("k1", "a"), ("k2", "c"), ("k3", "c")] ∧
    sinkWrites (getUserKeys scenarioApi 1 [[1, 2, 3]] fetchInit).trace
      = [("k1", "a"), ("k2", "c"), ("k3", "c")] := by
  refine ⟨pushKeys_eq, ?_, ?_, by decide, by decide⟩
  · intro st userIds n e hn hf hr
    have hw : sinkWrites (getUserKeysBatch api n st userIds).trace =
        sinkWrites st.trace ++ specAppends
          (heldQuery api (nodeIdsOf userIds) { Nodes := [] } st.calls (e + 1)).Nodes := by
      rw [batch_resolves api n e st userIds hn hf hr]
      simp only [sinkWrites_append, sinkWrites_queryRetryEvents, sinkWrites_rpush]
      simp [sinkWrites]
    refine ⟨hw, ?_, ?_⟩
    · intro j nodes hj hdata hlater
      rw [hw, heldQuery_last api (nodeIdsOf userIds) { Nodes := [] } st.calls e j nodes hj hdata
        hlater]
    · intro hnone
      rw [hw, heldQuery_none api (nodeIdsOf userIds) { Nodes := [] } st.calls (e + 1)
        (fun i hi => hnone i (by omega))]
      simp [specAppends]
  · intro a b r hr
    simp [specAppends, hr]

/-- Witness of the amended C7: one batch whose lookup resolves at once with
the three records of the example. -/
theorem pushes_every_key_witness :
    sinkWrites (getUserKeysBatch scenarioApi 1 fetchInit [1, 2, 3]).trace =
      sinkWrites fetchInit.trace ++ specAppends scenarioRecords :=
  ((pushes_every_key scenarioApi).2.1 fetchInit [1, 2, 3] 1 0 (by decide)
    (fun i hi => absurd hi (Nat.not_lt_zero i)) (by decide)).2.1 0 scenarioRecords
    (by decide) (by decide) (fun i h1 h2 => absurd h1 (by omega))

/-- C9: for a received batch, `getUserKeys` passes to every lookup the list
of the references of the batch's IDs, of the same length and in the same
order, and every lookup of the batch, retries included, carries that same
list; over the whole run the lookups are, batch after batch, repetitions of
the batch's reference list. -/
theorem lookup_uses_batch_refs (api : QueryApi) (n : Nat) (st : FetchState)
    (userIds : List Int) :
    nodeIdsOf userIds = userIds.map globalRef ∧
    (nodeIdsOf userIds).length = userIds.length ∧
    (∀ (i : Nat) (h : i < userIds.length),
      (nodeIdsOf userIds)[i]? = some (globalRef (userIds.get ⟨i, h⟩))) ∧
    (∃ c, lookups (getUserKeysBatch api n st userIds).trace =
        lookups st.trace ++ List.replicate c (userIds.map globalRef) ∧
      (getUserKeysBatch api n st userIds).calls = st.calls + c ∧ (0 < n → 0 < c)) ∧
    (∀ batches : List (List Int), ∃ counts : List Nat, counts.length ≤ batches.length ∧
      lookups (getUserKeys api n batches fetchInit).trace =
        (List.zipWith (fun b c => List.replicate c (b.map globalRef)) batches counts).flatten ∧
      ((getUserKeys api n batches fetchInit).returned = true →
        counts.length = batches.length ∧ ∀ c ∈ counts, 0 < c)) := by
  have hmap := nodeIdsOf_eq_map
  refine ⟨hmap userIds, by rw [hmap]; simp, ?_, ?_, ?_⟩
  · intro i h
    rw [hmap]
    simp [h]
  · obtain ⟨c, h1, h2, h3, _, _⟩ := batch_lookups api n st userIds
    exact ⟨c, by rw [← hmap]; exact h1, h2, h3⟩
  · intro batches
    obtain ⟨counts, g1, g2, g3⟩ := getUserKeys_lookups api n batches fetchInit
    refine ⟨counts, g1, ?_, g3 rfl⟩
    rw [g2]
    have hf : (fun b c => List.replicate c (nodeIdsOf b)) =
        (fun (b : List Int) c => List.replicate c (b.map globalRef)) := by
      funext b c
      rw [hmap]
    rw [hf]
    simp [fetchInit, lookups]

/-- Witness of C9: the batch `[1, 2]` is looked up under the references of
1 and 2, in that order. -/
theorem lookup_uses_batch_refs_witness :
    nodeIdsOf [1, 2] = ([1, 2] : List Int).map globalRef :=
  (lookup_uses_batch_refs scenarioApi 1 fetchInit [1, 2]).1

/-! ## Properties of the backoff -/

/-- C8, as stated, fails: there are no attempt counts `a < b`, both without
overflow of the sleep computation, with a strictly shorter wait for `b`. -/
theorem no_shorter_later_wait :
    ¬ ∃ a b : Nat, a < b ∧ NoOverflow a ∧ NoOverflow b ∧ sleepDuration b < sleepDuration a := by
  rintro ⟨a, b, hab, _, hb, hlt⟩
  have := sleepDuration_lt a b hab ((noOverflow_iff b).1 hb)
  omega

/-- C8, amended: the wait is a function of the attempt count alone and, as
long as the sleep computation does not overflow, it is strictly increasing:
for `a < b` the wait of `b` is strictly longer than the wait of `a`. -/
theorem backoff_strictly_increasing (a b : Nat) (hab : a < b) (hb : NoOverflow b) :
    sleepDuration a < sleepDuration b :=
  sleepDuration_lt a b hab ((noOverflow_iff b).1 hb)

/-- Witness of the amended C8: attempt counts 0 and 1. -/
theorem backoff_strictly_increasing_witness : sleepDuration 0 < sleepDuration 1 :=
  backoff_strictly_increasing 0 1 (by decide) ⟨by decide, by decide⟩

/-- C10: as `2^retries*100` is `2 xor (retries*100)` and `retries*100` is a
multiple of 4, the wait for attempt counter `n` is exactly `100*n + 2`
milliseconds whenever `(100*n + 2) * 10^6` fits in a signed 64 bit integer; on
that range it is 2 ms at `n = 0` and strictly increasing; and both stages sleep
for that same wait. -/
theorem backoff_linear (n : Nat) (h : (100 * (n : Int) + 2) * 10 ^ 6 ≤ 2 ^ 63 - 1) :
    Int.xor 2 ((n : Int) * 100) = 100 * (n : Int) + 2 ∧
    sleepDuration n = (100 * (n : Int) + 2) * millisecond ∧
    sleepDuration 0 = 2 * millisecond ∧
    (∀ m : Nat, m < n → sleepDuration m + 100 * millisecond ≤ sleepDuration n) ∧
    (∀ (api : ListApi) (s : EnumState) (rl : Bool), s.done = false → s.retries = n →
      api s.calls s.opts = ListResult.fail rl →
      sleeps (enumStep api s).trace = sleeps s.trace ++ [(100 * (n : Int) + 2) * millisecond]) ∧
    (∀ (api : QueryApi) (nodeIds : List String) (s : QueryState), s.done = false →
      s.retries = n → queryResolved (api s.calls nodeIds) = false →
      fetchSleeps (queryStep api nodeIds s).trace =
        fetchSleeps s.trace ++ [(100 * (n : Int) + 2) * millisecond]) := by
  have hn : (100 * (n : Int) + 2) * 1000000 < 2 ^ 63 := by omega
  have hs : sleepDuration n = (100 * (n : Int) + 2) * millisecond := sleepDuration_eq n hn
  refine ⟨int_xor_two n, hs, ?_, ?_, ?_, ?_⟩
  · rw [sleepDuration_eq 0 (by norm_num)]
    simp [millisecond]
  · intro m hm
    rw [hs, sleepDuration_eq m (by omega)]
    unfold millisecond
    omega
  · intro api s rl hd hr hf
    rw [enumStep_fail api s rl hd hf, hr, hs]
    simp [sleeps]
  · intro api nodeIds s hd hr hq
    rw [queryStep_retry api nodeIds s hd hq, hr, hs]
    simp [fetchSleeps]

/-- Witness of C10: attempt counter 3 waits 302 ms. -/
theorem backoff_linear_witness : sleepDuration 3 = (100 * ((3 : Nat) : Int) + 2) * millisecond :=
  (backoff_linear 3 (by decide)).2.1

end HubEnum
